import Mathlib

/-!
Verification of the Optima-Chat/optima-ops-cli `infisical-envs` scripts.

The development shallowly embeds the Python sources
`scripts/sync_to_infisical.py`, `scripts/compare_configs.py` and
`scripts/compare_with_archive_v2.py`:

* Python strings are Lean `String`s, manipulated through their character
  lists with helpers mirroring `str.strip`, `str.rstrip("/")`,
  `str.split("/")`, `"/".join(...)`;
* Python dicts are association lists with insertion-order semantics
  (`dictInsert` overwrites in place, `dictErase` models `del`);
* the remote Infisical project is an in-memory `Store`; every remote call
  of the client is a function from `Store` to a result, the new `Store`,
  and the list of issued API calls (`Op`); an `Oracle` decides which calls
  fail with which failure class, modelling raised `requests` exceptions;
* `try`/`except` blocks of the source are `match`es on the `Except` value.
-/

namespace OptimaOps

/-! ### Python string primitives, modelled over character lists -/

/-- Python `s.rstrip("/")`. -/
def rstripSlash (s : String) : String :=
  ⟨(s.data.reverse.dropWhile fun c => c = '/').reverse⟩

/-- Python `s.strip("/")`. -/
def stripSlash (s : String) : String :=
  ⟨(rstripSlash s).data.dropWhile fun c => c = '/'⟩

/-- Python `s.split("/")` over a character list (keeps empty segments,
`[] ↦ [[]]`, exactly like `str.split` with an explicit separator). -/
def splitSlash : List Char → List (List Char)
  | [] => [[]]
  | c :: cs =>
    if c = '/' then [] :: splitSlash cs
    else
      match splitSlash cs with
      | [] => [[c]]
      | h :: t => (c :: h) :: t

/-- Python `"/".join(parts)` over character lists. -/
def joinSlash : List (List Char) → List Char
  | [] => []
  | [x] => x
  | x :: xs => x ++ '/' :: joinSlash xs

/-- Python `s.strip()` (whitespace) over a character list. -/
def trimWs (l : List Char) : List Char :=
  ((l.dropWhile Char.isWhitespace).reverse.dropWhile Char.isWhitespace).reverse

/-! ### Python dicts as insertion-ordered association lists -/

/-- `d[k] = v` of a Python dict: overwrite in place, else append. -/
def dictInsert {α : Type} : List (String × α) → String → α → List (String × α)
  | [], k, v => [(k, v)]
  | (k', v') :: rest, k, v =>
    if k' = k then (k, v) :: rest else (k', v') :: dictInsert rest k v

/-- `d.get(k)` of a Python dict. -/
def lookupD {α : Type} : List (String × α) → String → Option α
  | [], _ => none
  | (k', v') :: rest, k => if k' = k then some v' else lookupD rest k

/-- `del d[k]` of a Python dict (removes the first entry for `k`). -/
def dictErase {α : Type} : List (String × α) → String → List (String × α)
  | [], _ => []
  | (k', v') :: rest, k => if k' = k then rest else (k', v') :: dictErase rest k

/-- Rebuild a dict from a pair list (`{k: v for (k, v) in l}`). -/
def dictOf {α : Type} (l : List (String × α)) : List (String × α) :=
  l.foldl (fun d kv => dictInsert d kv.1 kv.2) []

/-! ### The `.env` line parser shared by the scripts -/

/-- One line of a `.env` file: Python-strip it, skip blanks and `#` comments,
and split on the first `=`, stripping key and value. -/
def parseLineKV (line : String) : Option (String × String) :=
  let l := trimWs line.data
  if l = [] then none
  else if l.head? = some '#' then none
  else if l.contains '=' then
    some (⟨trimWs (l.takeWhile fun c => ¬ c = '=')⟩,
          ⟨trimWs ((l.dropWhile fun c => ¬ c = '=').drop 1)⟩)
  else none

/-- Loop body of `parse_env_file` in `sync_to_infisical.py` (empty keys are
skipped by `if key:`). -/
def syncParseStep (secrets : List (String × String)) (line : String) :
    List (String × String) :=
  match parseLineKV line with
  | some (k, v) => if k = "" then secrets else dictInsert secrets k v
  | none => secrets

/-- `parse_env_file` of `sync_to_infisical.py`: later duplicate keys
overwrite earlier ones. -/
def parse_env_file (lines : List String) : List (String × String) :=
  lines.foldl syncParseStep []

/-- Loop body of `parse_env_file` in `compare_with_archive_v2.py`
(no empty-key guard). -/
def v2ParseStep (result : List (String × String)) (line : String) :
    List (String × String) :=
  match parseLineKV line with
  | some (k, v) => dictInsert result k v
  | none => result

/-- `parse_env_file` of `compare_with_archive_v2.py`. -/
def parse_env_file_v2 (lines : List String) : List (String × String) :=
  lines.foldl v2ParseStep []

/-! ### Dict lemmas -/

theorem lookupD_dictInsert_self {α : Type} (d : List (String × α)) (k : String) (v : α) :
    lookupD (dictInsert d k v) k = some v := by
  induction d with
  | nil => simp [dictInsert, lookupD]
  | cons hd tl ih =>
    obtain ⟨k', v'⟩ := hd
    by_cases h : k' = k
    · simp [dictInsert, h, lookupD]
    · simp [dictInsert, h, lookupD, ih]

theorem lookupD_dictInsert_ne {α : Type} (d : List (String × α)) (k k' : String) (v : α)
    (h : k' ≠ k) : lookupD (dictInsert d k v) k' = lookupD d k' := by
  induction d with
  | nil => simp [dictInsert, lookupD, h, Ne.symm h]
  | cons hd tl ih =>
    obtain ⟨k'', v''⟩ := hd
    by_cases h2 : k'' = k
    · subst h2
      simp [dictInsert, lookupD, h, Ne.symm h]
    · by_cases h3 : k'' = k'
      · simp [dictInsert, h2, lookupD, h3, h]
      · simp [dictInsert, h2, lookupD, h3, ih]

theorem keys_dictInsert {α : Type} (d : List (String × α)) (k : String) (v : α) :
    ((dictInsert d k v).map Prod.fst) = if k ∈ d.map Prod.fst then d.map Prod.fst
      else d.map Prod.fst ++ [k] := by
  induction d with
  | nil => simp [dictInsert]
  | cons hd tl ih =>
    obtain ⟨k', v'⟩ := hd
    by_cases h : k' = k
    · simp [dictInsert, h]
    · by_cases h2 : k ∈ tl.map Prod.fst <;>
        simp [dictInsert, h, ih, h2, Ne.symm h]

theorem nodup_keys_dictInsert {α : Type} (d : List (String × α)) (k : String) (v : α)
    (h : (d.map Prod.fst).Nodup) : ((dictInsert d k v).map Prod.fst).Nodup := by
  rw [keys_dictInsert]
  by_cases h2 : k ∈ d.map Prod.fst
  · simpa [h2]
  · simp only [h2, if_false]
    rw [List.nodup_append]
    refine ⟨h, List.nodup_singleton _, ?_⟩
    intro a ha hb
    simp only [List.mem_singleton] at hb
    subst hb
    exact h2 ha

/-! ### Parser lemmas (claim C10) -/

theorem syncParseStep_lookup_frame (d : List (String × String)) (line k : String)
    (h : ∀ v', parseLineKV line ≠ some (k, v')) :
    lookupD (syncParseStep d line) k = lookupD d k := by
  unfold syncParseStep
  cases hp : parseLineKV line with
  | none => rfl
  | some kv =>
    obtain ⟨k', v'⟩ := kv
    have hk : k' ≠ k := by
      intro he
      exact h v' (by rw [hp, he])
    by_cases he : k' = ""
    · simp [he]
    · simp [he, lookupD_dictInsert_ne _ _ _ _ (Ne.symm hk)]

theorem v2ParseStep_lookup_frame (d : List (String × String)) (line k : String)
    (h : ∀ v', parseLineKV line ≠ some (k, v')) :
    lookupD (v2ParseStep d line) k = lookupD d k := by
  unfold v2ParseStep
  cases hp : parseLineKV line with
  | none => rfl
  | some kv =>
    obtain ⟨k', v'⟩ := kv
    have hk : k' ≠ k := by
      intro he
      exact h v' (by rw [hp, he])
    simp [lookupD_dictInsert_ne _ _ _ _ (Ne.symm hk)]

theorem foldl_syncParseStep_lookup_frame (lines : List String)
    (d : List (String × String)) (k : String)
    (h : ∀ l ∈ lines, ∀ v', parseLineKV l ≠ some (k, v')) :
    lookupD (lines.foldl syncParseStep d) k = lookupD d k := by
  induction lines generalizing d with
  | nil => rfl
  | cons hd tl ih =>
    rw [List.foldl_cons, ih _ (fun l hl => h l (List.mem_cons_of_mem _ hl)),
      syncParseStep_lookup_frame _ _ _ (h hd (List.mem_cons_self _ _))]

theorem foldl_v2ParseStep_lookup_frame (lines : List String)
    (d : List (String × String)) (k : String)
    (h : ∀ l ∈ lines, ∀ v', parseLineKV l ≠ some (k, v')) :
    lookupD (lines.foldl v2ParseStep d) k = lookupD d k := by
  induction lines generalizing d with
  | nil => rfl
  | cons hd tl ih =>
    rw [List.foldl_cons, ih _ (fun l hl => h l (List.mem_cons_of_mem _ hl)),
      v2ParseStep_lookup_frame _ _ _ (h hd (List.mem_cons_self _ _))]

theorem nodup_keys_syncParseStep (d : List (String × String)) (line : String)
    (h : (d.map Prod.fst).Nodup) : ((syncParseStep d line).map Prod.fst).Nodup := by
  unfold syncParseStep
  cases parseLineKV line with
  | none => exact h
  | some kv =>
    obtain ⟨k, v⟩ := kv
    by_cases he : k = ""
    · simpa [he]
    · simpa [he] using nodup_keys_dictInsert d k v h

theorem nodup_keys_v2ParseStep (d : List (String × String)) (line : String)
    (h : (d.map Prod.fst).Nodup) : ((v2ParseStep d line).map Prod.fst).Nodup := by
  unfold v2ParseStep
  cases parseLineKV line with
  | none => exact h
  | some kv => exact nodup_keys_dictInsert d kv.1 kv.2 h

theorem nodup_keys_foldl_syncParseStep (lines : List String)
    (d : List (String × String)) (h : (d.map Prod.fst).Nodup) :
    (((lines.foldl syncParseStep d)).map Prod.fst).Nodup := by
  induction lines generalizing d with
  | nil => exact h
  | cons hd tl ih => exact ih _ (nodup_keys_syncParseStep d hd h)

theorem nodup_keys_foldl_v2ParseStep (lines : List String)
    (d : List (String × String)) (h : (d.map Prod.fst).Nodup) :
    (((lines.foldl v2ParseStep d)).map Prod.fst).Nodup := by
  induction lines generalizing d with
  | nil => exact h
  | cons hd tl ih => exact ih _ (nodup_keys_v2ParseStep d hd h)

/-- Claim C10: in both `.env` parsers, when the same key appears on several
`KEY=VALUE` lines the returned mapping holds the value of the last such line,
and the resulting mapping has exactly one entry per key. -/
theorem c10_env_parser_last_wins (pre post : List String) (line k v : String)
    (hline : parseLineKV line = some (k, v)) (hk : k ≠ "")
    (hpost : ∀ l ∈ post, (parseLineKV l).map Prod.fst ≠ some k) :
    lookupD (parse_env_file (pre ++ line :: post)) k = some v ∧
    lookupD (parse_env_file_v2 (pre ++ line :: post)) k = some v ∧
    ∀ lines : List String, ((parse_env_file lines).map Prod.fst).Nodup ∧
      ((parse_env_file_v2 lines).map Prod.fst).Nodup := by
  have hpost' : ∀ l ∈ post, ∀ v', parseLineKV l ≠ some (k, v') := by
    intro l hl v' he
    exact hpost l hl (by rw [he]; rfl)
  refine ⟨?_, ?_, fun lines => ⟨nodup_keys_foldl_syncParseStep lines [] (by simp),
    nodup_keys_foldl_v2ParseStep lines [] (by simp)⟩⟩
  · unfold parse_env_file
    rw [List.foldl_append, List.foldl_cons,
      foldl_syncParseStep_lookup_frame post _ k hpost']
    unfold syncParseStep
    rw [hline]
    simp [hk, lookupD_dictInsert_self]
  · unfold parse_env_file_v2
    rw [List.foldl_append, List.foldl_cons,
      foldl_v2ParseStep_lookup_frame post _ k hpost']
    unfold v2ParseStep
    rw [hline]
    simp [lookupD_dictInsert_self]

/-- Witness for C10 at a concrete duplicated-key file. -/
theorem c10_env_parser_last_wins_witness :
    lookupD (parse_env_file ["A=1", "A=2", "# done"]) "A" = some "2" ∧
    lookupD (parse_env_file_v2 ["A=1", "A=2", "# done"]) "A" = some "2" ∧
    ∀ lines : List String, ((parse_env_file lines).map Prod.fst).Nodup ∧
      ((parse_env_file_v2 lines).map Prod.fst).Nodup := by
  have h := c10_env_parser_last_wins ["A=1"] ["# done"] "A=2" "A" "2"
    (by decide) (by decide) (by decide)
  exact h

/-! ### Key normalization of `compare_configs.py` (claim C7) -/

/-- Python `service_name.upper().replace('-', '_')`. -/
def upperScore (s : String) : String :=
  ⟨(s.data.map Char.toUpper).map fun c => if c = '-' then '_' else c⟩

/-- The ordered candidate prefix list inside `normalize_key`: the
service-specific prefix first, then the generic MCP prefixes. -/
def normPrefixes (service_name : String) : List String :=
  [upperScore service_name ++ "_",
   "COMFY_MCP_", "FETCH_MCP_", "PERPLEXITY_MCP_",
   "SHOPIFY_MCP_", "CHART_MCP_", "COMMERCE_MCP_",
   "GOOGLE_ADS_MCP_"]

/-- The `for prefix in prefixes` loop of `normalize_key`:
first match wins, no match returns the key unchanged. -/
def normKeyGo (key : String) : List String → String
  | [] => key
  | p :: ps =>
    if p.data.isPrefixOf key.data then ⟨key.data.drop p.data.length⟩
    else normKeyGo key ps

/-- `normalize_key` of `compare_configs.py`. -/
def normalize_key (key service_name : String) : String :=
  normKeyGo key (normPrefixes service_name)

theorem normKeyGo_eq_of_not_matched (key : String) (ps : List String)
    (h : ∀ p ∈ ps, p.data.isPrefixOf key.data = false) :
    normKeyGo key ps = key := by
  induction ps with
  | nil => rfl
  | cons p ps' ih =>
    unfold normKeyGo
    rw [h p (List.mem_cons_self _ _)]
    exact ih fun q hq => h q (List.mem_cons_of_mem _ hq)

theorem normKeyGo_eq_of_first (key : String) (ps : List String) (i : Nat)
    (hi : i < ps.length)
    (hmatch : (ps.get ⟨i, hi⟩).data.isPrefixOf key.data = true)
    (hbefore : ∀ j (hj : j < i),
      (ps.get ⟨j, Nat.lt_trans hj hi⟩).data.isPrefixOf key.data = false) :
    normKeyGo key ps = ⟨key.data.drop (ps.get ⟨i, hi⟩).data.length⟩ := by
  induction ps generalizing i with
  | nil => exact absurd hi (Nat.not_lt_zero _)
  | cons p ps' ih =>
    cases i with
    | zero =>
      unfold normKeyGo
      simp only [List.get] at hmatch ⊢
      rw [hmatch]
      simp
    | succ n =>
      have hp : p.data.isPrefixOf key.data = false := hbefore 0 (Nat.zero_lt_succ _)
      unfold normKeyGo
      rw [hp]
      simp only [List.get] at hmatch ⊢
      exact ih n (Nat.lt_of_succ_lt_succ hi) hmatch
        (fun j hj => hbefore (j + 1) (Nat.succ_lt_succ hj))

/-- Claim C7: key normalization removes the first matching prefix of the
ordered candidate list, the service-specific prefix is tried first,
`SERVICE_FOO_BAR` with service `service-foo` normalizes to `BAR`, and a key
matching no candidate prefix is returned unchanged. -/
theorem c7_normalize_key_first_prefix (key svc : String) :
    normalize_key "SERVICE_FOO_BAR" "service-foo" = "BAR" ∧
    (normPrefixes svc).head? = some (upperScore svc ++ "_") ∧
    ((∀ p ∈ normPrefixes svc, p.data.isPrefixOf key.data = false) →
      normalize_key key svc = key) ∧
    (∀ i (hi : i < (normPrefixes svc).length),
      ((normPrefixes svc).get ⟨i, hi⟩).data.isPrefixOf key.data = true →
      (∀ j (hj : j < i),
        ((normPrefixes svc).get ⟨j, Nat.lt_trans hj hi⟩).data.isPrefixOf key.data
          = false) →
      normalize_key key svc =
        ⟨key.data.drop ((normPrefixes svc).get ⟨i, hi⟩).data.length⟩) := by
  refine ⟨by decide, rfl, ?_, ?_⟩
  · exact fun h => normKeyGo_eq_of_not_matched key (normPrefixes svc) h
  · exact fun i hi hm hb => normKeyGo_eq_of_first key (normPrefixes svc) i hi hm hb

/-! ### The two snapshot comparators (claim C3) -/

/-- `EXPECTED_CHANGES` of `compare_configs.py` (static allow-set of keys whose
differences are expected). -/
def EXPECTED_CHANGES : List String :=
  ["PUBLIC_URL", "PUBLIC_BASE_URL", "USER_AUTH_URL", "OAUTH_ISSUER",
   "COMMERCE_API_URL", "API_BASE_URL", "NEXT_PUBLIC_BASE_URL",
   "NEXT_PUBLIC_USER_AUTH_URL", "NEXT_PUBLIC_COMMERCE_BACKEND_URL",
   "NEXT_PUBLIC_SHOP_DOMAIN", "CORS_ORIGINS",
   "CONTAINER_NAME", "APP_NAME",
   "COMFY_MCP_PUBLIC_URL", "FETCH_MCP_PUBLIC_URL", "PERPLEXITY_MCP_PUBLIC_URL",
   "SHOPIFY_MCP_PUBLIC_URL", "CHART_MCP_PUBLIC_URL", "COMMERCE_MCP_PUBLIC_URL",
   "GOOGLE_ADS_MCP_PUBLIC_URL",
   "STORE_DOMAIN", "SHOP_DOMAIN",
   "DATABASE_URL", "REDIS_URL", "DB_USER", "DB_PASSWORD", "DB_NAME",
   "OAUTH_CLIENT_ID", "OAUTH_CLIENT_SECRET", "SECRET_KEY", "SESSION_SECRET",
   "APP_SECRET", "EMAIL_PASSWORD_SECRET", "NODE_ENV", "LOG_LEVEL",
   "BACKEND_URL",
   "EMAIL_HOST", "EMAIL_PORT", "EMAIL_USER", "EMAIL_PASS", "EMAIL_FROM",
   "EMAIL_SECURE",
   "ANTHROPIC_API_KEY", "OPENAI_API_KEY", "PERPLEXITY_API_KEY"]

/-- Result record of `compare_configs` in `compare_configs.py`. -/
structure CCRes where
  matched : List (String × String)
  changed : List (String × String × String)
  expected_change : List (String × String × String)
  only_old : List (String × String)
  only_new : List (String × String)
deriving Repr, DecidableEq

/-- The `old_normalized` dict of `compare_configs`: maps each normalized old
key to the pair (original key, value); later collisions overwrite. -/
def buildOldNorm (svc : String) (old_config : List (String × String)) :
    List (String × String × String) :=
  old_config.foldl (fun d kv => dictInsert d (normalize_key kv.1 svc) (kv.1, kv.2)) []

/-- The `if old_val == new_val / elif ... / else` classification of one new
item that hit `old_normalized` in `compare_configs` (`res` is the rest of the
comparison's result). -/
def ccClassify (nk nv : String) (okv : String × String) (res : CCRes) : CCRes :=
  if okv.2 = nv then { res with matched := (nk, nv) :: res.matched }
  else if nk ∈ EXPECTED_CHANGES ∨ okv.1 ∈ EXPECTED_CHANGES then
    { res with expected_change := (nk, okv.2, nv) :: res.expected_change }
  else { res with changed := (nk, okv.2, nv) :: res.changed }

/-- The comparison loop of `compare_configs` over the new config's items,
threading the shrinking `old_normalized` dict (`del` after a hit); the
remaining entries become `only_old` at the end. -/
def ccLoop (svc : String) :
    List (String × String) → List (String × String × String) → CCRes
  | [], oldN =>
    { matched := [], changed := [], expected_change := [],
      only_old := oldN.map fun e => (e.2.1, e.2.2), only_new := [] }
  | (nk, nv) :: rest, oldN =>
    match lookupD oldN nk with
    | some okv => ccClassify nk nv okv (ccLoop svc rest (dictErase oldN nk))
    | none =>
      { ccLoop svc rest oldN with
        only_new := (nk, nv) :: (ccLoop svc rest oldN).only_new }

/-- `compare_configs` of `compare_configs.py` (its `env` parameter is unused
in the body and omitted here). -/
def compare_configs (old_config new_config : List (String × String))
    (service_name : String) : CCRes :=
  ccLoop service_name new_config (buildOldNorm service_name old_config)

/-- `EXPECTED_DIFF_KEYS` of `compare_with_archive_v2.py`. -/
def EXPECTED_DIFF_KEYS : List String :=
  ["DATABASE_URL", "DB_HOST", "DB_PORT", "DB_NAME", "DB_USER", "DB_PASSWORD",
   "DATABASE_HOST", "DATABASE_PORT",
   "REDIS_URL", "REDIS_HOST", "REDIS_PORT", "REDIS_DB",
   "ANTHROPIC_API_KEY", "OPENAI_API_KEY", "PERPLEXITY_API_KEY",
   "RESEND_API_KEY", "GOOGLE_ADS_CLIENT_ID", "GOOGLE_ADS_CLIENT_SECRET",
   "GOOGLE_ADS_DEVELOPER_TOKEN", "GOOGLE_ADS_REFRESH_TOKEN",
   "GOOGLE_ADS_MANAGER_ACCOUNT_ID", "GOOGLE_ADS_CUSTOMER_ID",
   "GOOGLE_ADS_LOGIN_CUSTOMER_ID",
   "SHOPIFY_ACCESS_TOKEN", "SHOPIFY_SHOP_DOMAIN",
   "EASYSHIP_API_KEY", "EASYSHIP_API_URL", "EASYSHIP_WEBHOOK_SECRET",
   "EXCHANGERATE_API_KEY", "FREECURRENCY_API_KEY",
   "STRIPE_SECRET_KEY", "STRIPE_CONNECT_CLIENT_ID",
   "STRIPE_CONNECT_WEBHOOK_SECRET",
   "STRIPE_WEBHOOK_SECRET", "STRIPE_PRICE_ID_ENTERPRISE_MONTHLY",
   "STRIPE_PRICE_ID_ENTERPRISE_YEARLY", "STRIPE_PRICE_ID_PRO_MONTHLY",
   "STRIPE_PRICE_ID_PRO_YEARLY",
   "MINIO_ACCESS_KEY", "MINIO_SECRET_KEY", "MINIO_ENDPOINT",
   "MINIO_BUCKET", "MINIO_TEMP_BUCKET", "MINIO_PUBLIC_DOMAIN",
   "OAUTH_CLIENT_ID", "OAUTH_CLIENT_SECRET",
   "PUBLIC_URL", "PUBLIC_BASE_URL", "USER_AUTH_URL", "OAUTH_ISSUER",
   "COMMERCE_API_URL", "API_BASE_URL", "BACKEND_URL", "STORE_DOMAIN",
   "MCP_HOST_URL", "DEVICE_VERIFICATION_URI",
   "NEXT_PUBLIC_BASE_URL", "NEXT_PUBLIC_USER_AUTH_URL",
   "NEXT_PUBLIC_COMMERCE_BACKEND_URL", "NEXT_PUBLIC_SHOP_DOMAIN",
   "NEXT_PUBLIC_AUTH_URL", "NEXT_PUBLIC_API_BASE_URL",
   "RESEND_FROM_EMAIL", "RESEND_FROM_NAME", "RESEND_REPLY_TO",
   "EMAIL_HOST", "EMAIL_PORT", "EMAIL_USER", "EMAIL_PASS", "EMAIL_FROM",
   "CORS_ORIGINS"]

/-- Result record of `compare_configs` in `compare_with_archive_v2.py`. -/
structure Cmp2Res where
  matched : List String
  expected_diff : List (String × String × String)
  unexpected_diff : List (String × String × String)
  only_expanded : List (String × String)
  only_archive : List (String × String)
deriving Repr, DecidableEq

/-- One iteration of the `for key in all_keys` loop of `compare_configs` in
`compare_with_archive_v2.py`, classifying `k` into the bucket the `if`/`elif`
chain picks (`res` is the result of the other iterations). The double-`none`
case cannot arise for a key of the union; it leaves the result unchanged. -/
def cmp2Step (expanded archive : List (String × String)) (k : String)
    (res : Cmp2Res) : Cmp2Res :=
  match lookupD expanded k, lookupD archive k with
  | none, some av => { res with only_archive := (k, av) :: res.only_archive }
  | some ev, none => { res with only_expanded := (k, ev) :: res.only_expanded }
  | some ev, some av =>
    if ev = av then { res with matched := k :: res.matched }
    else if k ∈ EXPECTED_DIFF_KEYS then
      { res with expected_diff := (k, av, ev) :: res.expected_diff }
    else { res with unexpected_diff := (k, av, ev) :: res.unexpected_diff }
  | none, none => res

/-- The loop of `compare_configs` in `compare_with_archive_v2.py` over the
union of the key sets. -/
def cmp2Loop (expanded archive : List (String × String)) : List String → Cmp2Res
  | [] => ⟨[], [], [], [], []⟩
  | k :: rest => cmp2Step expanded archive k (cmp2Loop expanded archive rest)

/-- `all_keys = set(expanded.keys()) | set(archive.keys())` (iteration order
of the Python set is unspecified; membership is what matters). -/
def allKeysOf (expanded archive : List (String × String)) : List String :=
  (expanded.map Prod.fst ++ archive.map Prod.fst).dedup

/-- `compare_configs` of `compare_with_archive_v2.py`. -/
def compare_configs_v2 (expanded archive : List (String × String)) : Cmp2Res :=
  cmp2Loop expanded archive (allKeysOf expanded archive)

/-- How many of the five buckets of a `compare_configs.py` result contain the
normalized key `κ` (the `only_old` bucket stores original keys, so membership
there is through normalization). -/
def bucketCount1 (svc : String) (res : CCRes) (κ : String) : Nat :=
  (if κ ∈ res.matched.map Prod.fst then 1 else 0) +
  (if κ ∈ res.changed.map Prod.fst then 1 else 0) +
  (if κ ∈ res.expected_change.map Prod.fst then 1 else 0) +
  (if κ ∈ res.only_old.map (fun e => normalize_key e.1 svc) then 1 else 0) +
  (if κ ∈ res.only_new.map Prod.fst then 1 else 0)

/-- How many of the five buckets of a `compare_with_archive_v2.py` result
contain the key `κ`. -/
def bucketCount2 (res : Cmp2Res) (κ : String) : Nat :=
  (if κ ∈ res.matched then 1 else 0) +
  (if κ ∈ res.expected_diff.map Prod.fst then 1 else 0) +
  (if κ ∈ res.unexpected_diff.map Prod.fst then 1 else 0) +
  (if κ ∈ res.only_expanded.map Prod.fst then 1 else 0) +
  (if κ ∈ res.only_archive.map Prod.fst then 1 else 0)

/-! ### More dict lemmas, for the comparator proofs -/

theorem lookupD_eq_none_iff {α : Type} (d : List (String × α)) (k : String) :
    lookupD d k = none ↔ k ∉ d.map Prod.fst := by
  induction d with
  | nil => simp [lookupD]
  | cons hd tl ih =>
    obtain ⟨k', v'⟩ := hd
    by_cases h : k' = k
    · simp [lookupD, h]
    · simp [lookupD, h, ih, Ne.symm h]

theorem mem_dictErase_of_mem {α : Type} (d : List (String × α)) (k : String)
    (e : String × α) (h : e ∈ dictErase d k) : e ∈ d := by
  induction d with
  | nil => simp [dictErase] at h
  | cons hd tl ih =>
    obtain ⟨k', v'⟩ := hd
    by_cases h2 : k' = k
    · simp only [dictErase, h2, if_pos rfl] at h
      exact List.mem_cons_of_mem _ h
    · simp only [dictErase, h2, if_neg h2] at h
      rcases List.mem_cons.1 h with h3 | h3
      · exact h3 ▸ List.mem_cons_self _ _
      · exact List.mem_cons_of_mem _ (ih h3)

theorem mem_keys_dictErase {α : Type} (d : List (String × α)) (k κ : String)
    (h : κ ∈ (dictErase d k).map Prod.fst) : κ ∈ d.map Prod.fst := by
  rcases List.mem_map.1 h with ⟨e, he, hfst⟩
  exact List.mem_map.2 ⟨e, mem_dictErase_of_mem d k e he, hfst⟩

theorem mem_keys_dictErase_iff {α : Type} (d : List (String × α)) (k κ : String)
    (hne : κ ≠ k) : κ ∈ (dictErase d k).map Prod.fst ↔ κ ∈ d.map Prod.fst := by
  induction d with
  | nil => simp [dictErase]
  | cons hd tl ih =>
    obtain ⟨k', v'⟩ := hd
    by_cases h2 : k' = k
    · subst h2
      simp only [dictErase, if_pos rfl, List.map_cons, List.mem_cons]
      constructor
      · exact Or.inr
      · rintro (he | he)
        · exact absurd he hne
        · exact he
    · simp [dictErase, h2, ih]

theorem not_mem_keys_dictErase_self {α : Type} (d : List (String × α)) (k : String)
    (h : (d.map Prod.fst).Nodup) : k ∉ (dictErase d k).map Prod.fst := by
  induction d with
  | nil => simp [dictErase]
  | cons hd tl ih =>
    obtain ⟨k', v'⟩ := hd
    simp only [List.map_cons, List.nodup_cons] at h
    by_cases h2 : k' = k
    · subst h2
      simpa [dictErase] using h.1
    · simp only [dictErase, if_neg h2, List.map_cons, List.mem_cons]
      push_neg
      exact ⟨fun he => h2 he.symm, ih h.2⟩

theorem nodup_keys_dictErase {α : Type} (d : List (String × α)) (k : String)
    (h : (d.map Prod.fst).Nodup) : ((dictErase d k).map Prod.fst).Nodup := by
  induction d with
  | nil => simp [dictErase]
  | cons hd tl ih =>
    obtain ⟨k', v'⟩ := hd
    simp only [List.map_cons, List.nodup_cons] at h
    by_cases h2 : k' = k
    · simpa [dictErase, h2] using h.2
    · simp only [dictErase, if_neg h2, List.map_cons, List.nodup_cons]
      refine ⟨fun hc => h.1 (mem_keys_dictErase tl k k' hc), ih h.2⟩

theorem mem_dictInsert {α : Type} (d : List (String × α)) (k : String) (v : α)
    (e : String × α) (h : e ∈ dictInsert d k v) : e = (k, v) ∨ e ∈ d := by
  induction d with
  | nil => simpa [dictInsert] using h
  | cons hd tl ih =>
    obtain ⟨k', v'⟩ := hd
    by_cases h2 : k' = k
    · simp only [dictInsert, if_pos h2] at h
      rcases List.mem_cons.1 h with h3 | h3
      · exact Or.inl h3
      · exact Or.inr (List.mem_cons_of_mem _ h3)
    · simp only [dictInsert, if_neg h2] at h
      rcases List.mem_cons.1 h with h3 | h3
      · exact Or.inr (h3 ▸ List.mem_cons_self _ _)
      · rcases ih h3 with h4 | h4
        · exact Or.inl h4
        · exact Or.inr (List.mem_cons_of_mem _ h4)

theorem mem_keys_dictInsert_iff {α : Type} (d : List (String × α)) (k : String)
    (v : α) (κ : String) :
    κ ∈ (dictInsert d k v).map Prod.fst ↔ κ = k ∨ κ ∈ d.map Prod.fst := by
  rw [keys_dictInsert]
  by_cases h : k ∈ d.map Prod.fst
  · rw [if_pos h]
    constructor
    · exact Or.inr
    · rintro (rfl | h2)
      · exact h
      · exact h2
  · rw [if_neg h]
    simp only [List.mem_append, List.mem_singleton]
    tauto

/-! ### Properties of `buildOldNorm` -/

theorem nodup_keys_buildOldNorm (svc : String) (old_config : List (String × String)) :
    ((buildOldNorm svc old_config).map Prod.fst).Nodup := by
  unfold buildOldNorm
  suffices h : ∀ (l : List (String × String)) (d : List (String × String × String)),
      (d.map Prod.fst).Nodup →
      ((l.foldl (fun d kv => dictInsert d (normalize_key kv.1 svc) (kv.1, kv.2)) d).map
        Prod.fst).Nodup by
    exact h old_config [] (by simp)
  intro l
  induction l with
  | nil => exact fun d h => h
  | cons hd tl ih => exact fun d h => ih _ (nodup_keys_dictInsert _ _ _ h)

theorem inv_buildOldNorm (svc : String) (old_config : List (String × String)) :
    ∀ e ∈ buildOldNorm svc old_config, normalize_key e.2.1 svc = e.1 := by
  unfold buildOldNorm
  suffices h : ∀ (l : List (String × String)) (d : List (String × String × String)),
      (∀ e ∈ d, normalize_key e.2.1 svc = e.1) →
      ∀ e ∈ l.foldl (fun d kv => dictInsert d (normalize_key kv.1 svc) (kv.1, kv.2)) d,
        normalize_key e.2.1 svc = e.1 by
    exact h old_config [] (by simp)
  intro l
  induction l with
  | nil => exact fun d h => h
  | cons hd tl ih =>
    intro d h
    refine ih _ ?_
    intro e he
    rcases mem_dictInsert _ _ _ _ he with h2 | h2
    · subst h2; rfl
    · exact h e h2

theorem mem_keys_buildOldNorm (svc : String) (old_config : List (String × String))
    (κ : String) :
    κ ∈ (buildOldNorm svc old_config).map Prod.fst ↔
      κ ∈ old_config.map fun kv => normalize_key kv.1 svc := by
  unfold buildOldNorm
  suffices h : ∀ (l : List (String × String)) (d : List (String × String × String)),
      (κ ∈ (l.foldl (fun d kv => dictInsert d (normalize_key kv.1 svc) (kv.1, kv.2)) d).map
          Prod.fst ↔
        κ ∈ d.map Prod.fst ∨ κ ∈ l.map fun kv => normalize_key kv.1 svc) by
    simpa using h old_config []
  intro l
  induction l with
  | nil => simp
  | cons hd tl ih =>
    intro d
    rw [List.foldl_cons, ih, mem_keys_dictInsert_iff]
    simp only [List.map_cons, List.mem_cons]
    tauto

/-! ### Partition of the comparison buckets (claim C3) -/

theorem ite_mem_cons_self {l : List String} {κ : String} (x y : Nat) :
    (if κ ∈ κ :: l then x else y) = x :=
  if_pos (List.mem_cons_self κ l)

theorem ite_mem_cons_ne {κ k : String} (hκ : ¬κ = k) (l : List String) (x y : Nat) :
    (if κ ∈ k :: l then x else y) = if κ ∈ l then x else y := by
  by_cases h : κ ∈ l
  · rw [if_pos h, if_pos (List.mem_cons_of_mem _ h)]
  · rw [if_neg h, if_neg ?_]
    intro hc
    rcases List.mem_cons.1 hc with hc | hc
    · exact hκ hc
    · exact h hc

theorem bucketCount2_eq_zero_iff (res : Cmp2Res) (κ : String) :
    bucketCount2 res κ = 0 ↔
      κ ∉ res.matched ∧ κ ∉ res.expected_diff.map Prod.fst ∧
      κ ∉ res.unexpected_diff.map Prod.fst ∧ κ ∉ res.only_expanded.map Prod.fst ∧
      κ ∉ res.only_archive.map Prod.fst := by
  unfold bucketCount2
  constructor
  · intro h
    by_cases h1 : κ ∈ res.matched
    · rw [if_pos h1] at h
      omega
    by_cases h2 : κ ∈ res.expected_diff.map Prod.fst
    · rw [if_pos h2] at h
      omega
    by_cases h3 : κ ∈ res.unexpected_diff.map Prod.fst
    · rw [if_pos h3] at h
      omega
    by_cases h4 : κ ∈ res.only_expanded.map Prod.fst
    · rw [if_pos h4] at h
      omega
    by_cases h5 : κ ∈ res.only_archive.map Prod.fst
    · rw [if_pos h5] at h
      omega
    exact ⟨h1, h2, h3, h4, h5⟩
  · rintro ⟨h1, h2, h3, h4, h5⟩
    rw [if_neg h1, if_neg h2, if_neg h3, if_neg h4, if_neg h5]

theorem bucketCount1_eq_zero_iff (svc : String) (res : CCRes) (κ : String) :
    bucketCount1 svc res κ = 0 ↔
      κ ∉ res.matched.map Prod.fst ∧ κ ∉ res.changed.map Prod.fst ∧
      κ ∉ res.expected_change.map Prod.fst ∧
      κ ∉ res.only_old.map (fun e => normalize_key e.1 svc) ∧
      κ ∉ res.only_new.map Prod.fst := by
  unfold bucketCount1
  constructor
  · intro h
    by_cases h1 : κ ∈ res.matched.map Prod.fst
    · rw [if_pos h1] at h
      omega
    by_cases h2 : κ ∈ res.changed.map Prod.fst
    · rw [if_pos h2] at h
      omega
    by_cases h3 : κ ∈ res.expected_change.map Prod.fst
    · rw [if_pos h3] at h
      omega
    by_cases h4 : κ ∈ res.only_old.map (fun e => normalize_key e.1 svc)
    · rw [if_pos h4] at h
      omega
    by_cases h5 : κ ∈ res.only_new.map Prod.fst
    · rw [if_pos h5] at h
      omega
    exact ⟨h1, h2, h3, h4, h5⟩
  · rintro ⟨h1, h2, h3, h4, h5⟩
    rw [if_neg h1, if_neg h2, if_neg h3, if_neg h4, if_neg h5]

theorem bucketCount2_cmp2Step_ne (expanded archive : List (String × String))
    (k κ : String) (res : Cmp2Res) (hκ : ¬κ = k) :
    bucketCount2 (cmp2Step expanded archive k res) κ = bucketCount2 res κ := by
  unfold cmp2Step
  split
  · simp only [bucketCount2, List.map_cons]
    rw [ite_mem_cons_ne hκ]
  · simp only [bucketCount2, List.map_cons]
    rw [ite_mem_cons_ne hκ]
  · split
    · simp only [bucketCount2, List.map_cons]
      rw [ite_mem_cons_ne hκ]
    · split
      · simp only [bucketCount2, List.map_cons]
        rw [ite_mem_cons_ne hκ]
      · simp only [bucketCount2, List.map_cons]
        rw [ite_mem_cons_ne hκ]
  · rfl

theorem bucketCount2_cmp2Step_self (expanded archive : List (String × String))
    (k : String) (res : Cmp2Res) (h0 : bucketCount2 res k = 0)
    (hcov : lookupD expanded k ≠ none ∨ lookupD archive k ≠ none) :
    bucketCount2 (cmp2Step expanded archive k res) k = 1 := by
  rw [bucketCount2_eq_zero_iff] at h0
  obtain ⟨h1, h2, h3, h4, h5⟩ := h0
  unfold cmp2Step
  split
  · simp only [bucketCount2, List.map_cons]
    rw [if_neg h1, if_neg h2, if_neg h3, if_neg h4, ite_mem_cons_self]
  · simp only [bucketCount2, List.map_cons]
    rw [if_neg h1, if_neg h2, if_neg h3, ite_mem_cons_self, if_neg h5]
  · split
    · simp only [bucketCount2, List.map_cons]
      rw [ite_mem_cons_self, if_neg h2, if_neg h3, if_neg h4, if_neg h5]
    · split
      · simp only [bucketCount2, List.map_cons]
        rw [if_neg h1, ite_mem_cons_self, if_neg h3, if_neg h4, if_neg h5]
      · simp only [bucketCount2, List.map_cons]
        rw [if_neg h1, if_neg h2, ite_mem_cons_self, if_neg h4, if_neg h5]
  · rename_i he ha
    rcases hcov with hc | hc
    · exact absurd he hc
    · exact absurd ha hc

theorem cmp2Loop_cons_eq (expanded archive : List (String × String))
    (k : String) (rest : List String) :
    cmp2Loop expanded archive (k :: rest) =
      cmp2Step expanded archive k (cmp2Loop expanded archive rest) := rfl

theorem cmp2Loop_count (expanded archive : List (String × String))
    (kl : List String) (hnd : kl.Nodup)
    (hcov : ∀ k ∈ kl, lookupD expanded k ≠ none ∨ lookupD archive k ≠ none)
    (κ : String) :
    (κ ∈ kl → bucketCount2 (cmp2Loop expanded archive kl) κ = 1) ∧
    (κ ∉ kl → bucketCount2 (cmp2Loop expanded archive kl) κ = 0) := by
  induction kl with
  | nil => exact ⟨fun h => absurd h (List.not_mem_nil κ), fun _ => rfl⟩
  | cons k rest ih =>
    have hk : k ∉ rest := (List.nodup_cons.1 hnd).1
    have ihk := ih hnd.of_cons (fun k' hk' => hcov k' (List.mem_cons_of_mem _ hk'))
    rw [cmp2Loop_cons_eq]
    by_cases hκ : κ = k
    · subst hκ
      refine ⟨fun _ => ?_, fun hmem => absurd (List.mem_cons_self _ _) hmem⟩
      exact bucketCount2_cmp2Step_self expanded archive κ _ (ihk.2 hk)
        (hcov κ (List.mem_cons_self _ _))
    · rw [bucketCount2_cmp2Step_ne expanded archive k κ _ hκ]
      constructor
      · intro hmem
        rcases List.mem_cons.1 hmem with h | h
        · exact absurd h hκ
        · exact ihk.1 h
      · exact fun hmem => ihk.2 fun h => hmem (List.mem_cons_of_mem _ h)

theorem bucketCount1_ccClassify_ne (svc nk nv : String) (okv : String × String)
    (res : CCRes) (κ : String) (hκ : ¬κ = nk) :
    bucketCount1 svc (ccClassify nk nv okv res) κ = bucketCount1 svc res κ := by
  unfold ccClassify
  split
  · simp only [bucketCount1, List.map_cons]
    rw [ite_mem_cons_ne hκ]
  · split
    · simp only [bucketCount1, List.map_cons]
      rw [ite_mem_cons_ne hκ]
    · simp only [bucketCount1, List.map_cons]
      rw [ite_mem_cons_ne hκ]

theorem bucketCount1_ccClassify_self (svc nk nv : String) (okv : String × String)
    (res : CCRes) (h0 : bucketCount1 svc res nk = 0) :
    bucketCount1 svc (ccClassify nk nv okv res) nk = 1 := by
  rw [bucketCount1_eq_zero_iff] at h0
  obtain ⟨h1, h2, h3, h4, h5⟩ := h0
  unfold ccClassify
  split
  · simp only [bucketCount1, List.map_cons]
    rw [ite_mem_cons_self, if_neg h2, if_neg h3, if_neg h4, if_neg h5]
  · split
    · simp only [bucketCount1, List.map_cons]
      rw [if_neg h1, if_neg h2, ite_mem_cons_self, if_neg h4, if_neg h5]
    · simp only [bucketCount1, List.map_cons]
      rw [if_neg h1, ite_mem_cons_self, if_neg h3, if_neg h4, if_neg h5]

theorem bucketCount1_onlyNew_ne (svc : String) (res : CCRes) (nk nv κ : String)
    (hκ : ¬κ = nk) :
    bucketCount1 svc { res with only_new := (nk, nv) :: res.only_new } κ =
      bucketCount1 svc res κ := by
  simp only [bucketCount1, List.map_cons]
  rw [ite_mem_cons_ne hκ]

theorem bucketCount1_onlyNew_self (svc : String) (res : CCRes) (nk nv : String)
    (h0 : bucketCount1 svc res nk = 0) :
    bucketCount1 svc { res with only_new := (nk, nv) :: res.only_new } nk = 1 := by
  rw [bucketCount1_eq_zero_iff] at h0
  obtain ⟨h1, h2, h3, h4, h5⟩ := h0
  simp only [bucketCount1, List.map_cons]
  rw [if_neg h1, if_neg h2, if_neg h3, if_neg h4, ite_mem_cons_self]

theorem mem_onlyOldNorm_iff (svc : String) (oldN : List (String × String × String))
    (κ : String) (hinv : ∀ e ∈ oldN, normalize_key e.2.1 svc = e.1) :
    (κ ∈ (oldN.map fun e => (e.2.1, e.2.2)).map fun e => normalize_key e.1 svc) ↔
      κ ∈ oldN.map Prod.fst := by
  simp only [List.mem_map]
  constructor
  · rintro ⟨p, ⟨e, he, rfl⟩, hnorm⟩
    refine ⟨e, he, ?_⟩
    rw [← hnorm]
    exact (hinv e he).symm
  · rintro ⟨e, he, rfl⟩
    exact ⟨(e.2.1, e.2.2), ⟨e, he, rfl⟩, hinv e he⟩

theorem bucketCount1_ccLoop_nil (svc : String)
    (oldN : List (String × String × String)) (κ : String)
    (hinv : ∀ e ∈ oldN, normalize_key e.2.1 svc = e.1) :
    bucketCount1 svc (ccLoop svc [] oldN) κ =
      if κ ∈ oldN.map Prod.fst then 1 else 0 := by
  by_cases h : κ ∈ oldN.map Prod.fst
  · rw [if_pos h]
    simp only [ccLoop, bucketCount1, List.map_nil]
    rw [if_pos ((mem_onlyOldNorm_iff svc oldN κ hinv).2 h)]
    simp
  · rw [if_neg h]
    simp only [ccLoop, bucketCount1, List.map_nil]
    rw [if_neg (fun hc => h ((mem_onlyOldNorm_iff svc oldN κ hinv).1 hc))]
    simp

theorem ccLoop_cons_eq (svc nk nv : String) (rest : List (String × String))
    (oldN : List (String × String × String)) :
    ccLoop svc ((nk, nv) :: rest) oldN =
      match lookupD oldN nk with
      | some okv => ccClassify nk nv okv (ccLoop svc rest (dictErase oldN nk))
      | none =>
        { ccLoop svc rest oldN with
          only_new := (nk, nv) :: (ccLoop svc rest oldN).only_new } := rfl

theorem ccLoop_count (svc : String) (items : List (String × String)) :
    ∀ oldN : List (String × String × String),
    (items.map Prod.fst).Nodup → (oldN.map Prod.fst).Nodup →
    (∀ e ∈ oldN, normalize_key e.2.1 svc = e.1) →
    ∀ κ : String,
    ((κ ∈ items.map Prod.fst ∨ κ ∈ oldN.map Prod.fst) →
      bucketCount1 svc (ccLoop svc items oldN) κ = 1) ∧
    (κ ∉ items.map Prod.fst → κ ∉ oldN.map Prod.fst →
      bucketCount1 svc (ccLoop svc items oldN) κ = 0) := by
  induction items with
  | nil =>
    intro oldN _ _ hinv κ
    rw [and_comm]
    constructor
    · intro _ hmem
      rw [bucketCount1_ccLoop_nil svc oldN κ hinv, if_neg hmem]
    · rintro (h | h)
      · exact absurd h (List.not_mem_nil κ)
      · rw [bucketCount1_ccLoop_nil svc oldN κ hinv, if_pos h]
  | cons hd rest ih =>
    obtain ⟨nk, nv⟩ := hd
    intro oldN hndi hndo hinv κ
    rw [List.map_cons] at hndi
    have hnk : nk ∉ rest.map Prod.fst := (List.nodup_cons.1 hndi).1
    have hndi' : (rest.map Prod.fst).Nodup := (List.nodup_cons.1 hndi).2
    cases ho : lookupD oldN nk with
    | some okv =>
      have heq : ccLoop svc ((nk, nv) :: rest) oldN =
          ccClassify nk nv okv (ccLoop svc rest (dictErase oldN nk)) := by
        rw [ccLoop_cons_eq, ho]
      rw [heq]
      have hnde := nodup_keys_dictErase oldN nk hndo
      have hinve : ∀ e ∈ dictErase oldN nk, normalize_key e.2.1 svc = e.1 :=
        fun e he => hinv e (mem_dictErase_of_mem _ _ _ he)
      have ihe := ih (dictErase oldN nk) hndi' hnde hinve
      by_cases hκ : κ = nk
      · subst hκ
        have h0 := (ihe κ).2 hnk (not_mem_keys_dictErase_self oldN κ hndo)
        refine ⟨fun _ => bucketCount1_ccClassify_self svc κ nv okv _ h0,
          fun hmem => absurd (by rw [List.map_cons]; exact List.mem_cons_self _ _) hmem⟩
      · rw [bucketCount1_ccClassify_ne svc nk nv okv _ κ hκ]
        constructor
        · intro hmem
          refine (ihe κ).1 ?_
          rcases hmem with h | h
          · rw [List.map_cons] at h
            rcases List.mem_cons.1 h with h6 | h6
            · exact absurd h6 hκ
            · exact Or.inl h6
          · exact Or.inr ((mem_keys_dictErase_iff oldN nk κ hκ).2 h)
        · intro hmem hmem2
          refine (ihe κ).2
            (fun h => hmem (by rw [List.map_cons]; exact List.mem_cons_of_mem _ h)) ?_
          exact fun h => hmem2 (mem_keys_dictErase oldN nk κ h)
    | none =>
      have heq : ccLoop svc ((nk, nv) :: rest) oldN =
          { ccLoop svc rest oldN with
            only_new := (nk, nv) :: (ccLoop svc rest oldN).only_new } := by
        rw [ccLoop_cons_eq, ho]
      rw [heq]
      have ihn := ih oldN hndi' hndo hinv
      have hnko : nk ∉ oldN.map Prod.fst := (lookupD_eq_none_iff oldN nk).1 ho
      by_cases hκ : κ = nk
      · subst hκ
        have h0 := (ihn κ).2 hnk hnko
        refine ⟨fun _ => bucketCount1_onlyNew_self svc _ κ nv h0,
          fun hmem => absurd (by rw [List.map_cons]; exact List.mem_cons_self _ _) hmem⟩
      · rw [bucketCount1_onlyNew_ne svc _ nk nv κ hκ]
        constructor
        · intro hmem
          refine (ihn κ).1 ?_
          rcases hmem with h | h
          · rw [List.map_cons] at h
            rcases List.mem_cons.1 h with h6 | h6
            · exact absurd h6 hκ
            · exact Or.inl h6
          · exact Or.inr h
        · intro hmem hmem2
          exact (ihn κ).2
            (fun h => hmem (by rw [List.map_cons]; exact List.mem_cons_of_mem _ h)) hmem2

theorem lookupD_ne_none_of_mem_keys {α : Type} (d : List (String × α)) (k : String)
    (h : k ∈ d.map Prod.fst) : lookupD d k ≠ none :=
  fun hn => (lookupD_eq_none_iff d k).1 hn h

/-- Claim C3: for both comparators, the five buckets form a strict partition
of the union of the (normalized) keys of snapshot A and the keys of
snapshot B: every key of the union lands in exactly one bucket. -/
theorem c3_comparison_buckets_partition
    (old_config new_config expanded archive : List (String × String))
    (svc : String) (hnew : (new_config.map Prod.fst).Nodup) :
    (∀ κ : String,
      (κ ∈ old_config.map (fun kv => normalize_key kv.1 svc) ∨
        κ ∈ new_config.map Prod.fst) →
      bucketCount1 svc (compare_configs old_config new_config svc) κ = 1) ∧
    (∀ κ : String,
      (κ ∈ expanded.map Prod.fst ∨ κ ∈ archive.map Prod.fst) →
      bucketCount2 (compare_configs_v2 expanded archive) κ = 1) := by
  constructor
  · intro κ hκ
    unfold compare_configs
    refine (ccLoop_count svc new_config (buildOldNorm svc old_config) hnew
      (nodup_keys_buildOldNorm svc old_config) (inv_buildOldNorm svc old_config) κ).1 ?_
    rcases hκ with h | h
    · exact Or.inr ((mem_keys_buildOldNorm svc old_config κ).2 h)
    · exact Or.inl h
  · intro κ hκ
    unfold compare_configs_v2
    refine (cmp2Loop_count expanded archive (allKeysOf expanded archive)
      (List.nodup_dedup _) ?_ κ).1 ?_
    · intro k hk
      rcases List.mem_append.1 (List.mem_dedup.1 hk) with h | h
      · exact Or.inl (lookupD_ne_none_of_mem_keys expanded k h)
      · exact Or.inr (lookupD_ne_none_of_mem_keys archive k h)
    · unfold allKeysOf
      rw [List.mem_dedup, List.mem_append]
      exact hκ

/-- Witness for C3 at concrete snapshots (the normalized old key `SVC_A`
collides with the new key `A`). -/
theorem c3_comparison_buckets_partition_witness :
    (∀ κ : String,
      (κ ∈ [("SVC_A", "1"), ("B", "2")].map (fun kv => normalize_key kv.1 "svc") ∨
        κ ∈ [("A", "1"), ("C", "3")].map Prod.fst) →
      bucketCount1 "svc"
        (compare_configs [("SVC_A", "1"), ("B", "2")] [("A", "1"), ("C", "3")] "svc")
        κ = 1) ∧
    (∀ κ : String,
      (κ ∈ [("X", "1")].map Prod.fst ∨ κ ∈ [("X", "2"), ("Y", "3")].map Prod.fst) →
      bucketCount2 (compare_configs_v2 [("X", "1")] [("X", "2"), ("Y", "3")]) κ = 1) :=
  c3_comparison_buckets_partition [("SVC_A", "1"), ("B", "2")] [("A", "1"), ("C", "3")]
    [("X", "1")] [("X", "2"), ("Y", "3")] "svc" (by decide)

/-! ### The remote store model for `sync_to_infisical.py`

Every method of `InfisicalClient` becomes a function from an `Oracle` (which
decides which API calls the remote rejects, and with which failure class) and
a `Store` to an `Except` result, the new store and the list of issued calls.
A Python `try`/`except` is a `match` on the `Except` value. -/

deriving instance DecidableEq for Except

/-- Failure classes of a remote call (a raised `requests` exception). -/
inductive Failure where
  | notFound
  | transport
  | auth
  | other
deriving Repr, DecidableEq

/-- One Infisical API call of the client, reads included. -/
inductive Op where
  | listFolders (env path : String)
  | listSecrets (env path : String)
  | listImports (env path : String)
  | createFolder (env parentPath fname : String)
  | deleteFolder (env : String) (folderId : Nat) (parentPath : String)
  | createSecret (env path key value : String)
  | updateSecret (env path key value : String)
  | deleteSecret (env path key : String)
  | createImport (env path importEnv importPath : String)
  | deleteImport (env path : String) (importId : Nat)
deriving Repr, DecidableEq

/-- Whether a call writes to the remote store. -/
def Op.isMutating : Op → Bool
  | .listFolders _ _ | .listSecrets _ _ | .listImports _ _ => false
  | _ => true

/-- Decides which calls fail, and with which failure class (success is
`none`); it stands for the remote side's behavior. -/
def Oracle : Type := Op → Option Failure

/-- The oracle of an always-healthy remote. -/
def noFail : Oracle := fun _ => none

/-- A folder of the remote project (a child named `fname` of `parentPath`). -/
structure FolderRec where
  fid : Nat
  env : String
  parentPath : String
  fname : String
deriving Repr, DecidableEq

/-- A secret of the remote project. -/
structure SecretRec where
  env : String
  path : String
  key : String
  value : String
deriving Repr, DecidableEq

/-- An import edge of the remote project: `(env, path)` pulls from
`(importEnvSlug, importPath)`. -/
structure ImportRec where
  iid : Nat
  env : String
  path : String
  importEnvSlug : String
  importPath : String
deriving Repr, DecidableEq

/-- The remote Infisical project, plus a counter for fresh identifiers. -/
structure Store where
  folders : List FolderRec
  secrets : List SecretRec
  imports : List ImportRec
  nextId : Nat
deriving Repr, DecidableEq

/-- Folder records with `(env, parentPath)` matching, as `(id, name)` pairs. -/
def foldersAtL (env path : String) : List FolderRec → List (Nat × String)
  | [] => []
  | f :: rest =>
    if f.env = env ∧ f.parentPath = path then (f.fid, f.fname) :: foldersAtL env path rest
    else foldersAtL env path rest

/-- Folders listed at `(env, path)`: `(id, name)` pairs. -/
def foldersAt (env path : String) (s : Store) : List (Nat × String) :=
  foldersAtL env path s.folders

/-- Secret records with `(env, path)` matching, as `(key, value)` pairs. -/
def secretsAtL (env path : String) : List SecretRec → List (String × String)
  | [] => []
  | r :: rest =>
    if r.env = env ∧ r.path = path then (r.key, r.value) :: secretsAtL env path rest
    else secretsAtL env path rest

/-- Secrets listed at `(env, path)`: `(secretKey, secretValue)` pairs. -/
def secretsAt (env path : String) (s : Store) : List (String × String) :=
  secretsAtL env path s.secrets

/-- Import records with `(env, path)` matching, as `(id, slug, path)` triples. -/
def importsAtL (env path : String) : List ImportRec → List (Nat × String × String)
  | [] => []
  | r :: rest =>
    if r.env = env ∧ r.path = path then
      (r.iid, r.importEnvSlug, r.importPath) :: importsAtL env path rest
    else importsAtL env path rest

/-- Import edges listed at `(env, path)`: `(id, importEnv slug, importPath)`. -/
def importsAt (env path : String) (s : Store) : List (Nat × String × String) :=
  importsAtL env path s.imports

theorem foldersAtL_append (env path : String) (l1 l2 : List FolderRec) :
    foldersAtL env path (l1 ++ l2) = foldersAtL env path l1 ++ foldersAtL env path l2 := by
  induction l1 with
  | nil => rfl
  | cons f rest ih =>
    by_cases hf : f.env = env ∧ f.parentPath = path <;>
      simp [foldersAtL, hf, ih]

theorem importsAtL_append (env path : String) (l1 l2 : List ImportRec) :
    importsAtL env path (l1 ++ l2) = importsAtL env path l1 ++ importsAtL env path l2 := by
  induction l1 with
  | nil => rfl
  | cons f rest ih =>
    by_cases hf : f.env = env ∧ f.path = path <;>
      simp [importsAtL, hf, ih]

/-- `list_folders` of `InfisicalClient`. -/
def list_folders (o : Oracle) (env path : String) (s : Store) :
    Except Failure (List (Nat × String)) × Store × List Op :=
  match o (.listFolders env path) with
  | some f => (.error f, s, [.listFolders env path])
  | none => (.ok (foldersAt env path s), s, [.listFolders env path])

/-- `list_secrets` of `InfisicalClient`. -/
def list_secrets (o : Oracle) (env path : String) (s : Store) :
    Except Failure (List (String × String)) × Store × List Op :=
  match o (.listSecrets env path) with
  | some f => (.error f, s, [.listSecrets env path])
  | none => (.ok (secretsAt env path s), s, [.listSecrets env path])

/-- `list_secret_imports` of `InfisicalClient`. -/
def list_secret_imports (o : Oracle) (env path : String) (s : Store) :
    Except Failure (List (Nat × String × String)) × Store × List Op :=
  match o (.listImports env path) with
  | some f => (.error f, s, [.listImports env path])
  | none => (.ok (importsAt env path s), s, [.listImports env path])

/-- `create_folder` of `InfisicalClient`: the server adds a child named
`fname` under `path` with a fresh identifier. -/
def create_folder (o : Oracle) (env fname path : String) (s : Store) :
    Except Failure Unit × Store × List Op :=
  match o (.createFolder env path fname) with
  | some f => (.error f, s, [.createFolder env path fname])
  | none =>
    (.ok (),
     { s with folders := s.folders ++ [⟨s.nextId, env, path, fname⟩],
              nextId := s.nextId + 1 },
     [.createFolder env path fname])

/-- `delete_folder` of `InfisicalClient` (deletes by identifier). -/
def delete_folder (o : Oracle) (env : String) (folderId : Nat)
    (parentPath : String) (s : Store) : Except Failure Unit × Store × List Op :=
  match o (.deleteFolder env folderId parentPath) with
  | some f => (.error f, s, [.deleteFolder env folderId parentPath])
  | none =>
    (.ok (), { s with folders := s.folders.filter fun f => !(f.fid == folderId) },
     [.deleteFolder env folderId parentPath])

/-- The server-side effect of writing a secret value at `(env, path, key)`:
replace the record in place, else append it. -/
def setSecretL (l : List SecretRec) (env path key value : String) :
    List SecretRec :=
  match l with
  | [] => [⟨env, path, key, value⟩]
  | r :: rest =>
    if r.env = env ∧ r.path = path ∧ r.key = key then
      ⟨env, path, key, value⟩ :: rest
    else r :: setSecretL rest env path key value

/-- `create_secret` of `InfisicalClient`. -/
def create_secret (o : Oracle) (env key value path : String) (s : Store) :
    Except Failure Unit × Store × List Op :=
  match o (.createSecret env path key value) with
  | some f => (.error f, s, [.createSecret env path key value])
  | none =>
    (.ok (), { s with secrets := setSecretL s.secrets env path key value },
     [.createSecret env path key value])

/-- `update_secret` of `InfisicalClient`. -/
def update_secret (o : Oracle) (env key value path : String) (s : Store) :
    Except Failure Unit × Store × List Op :=
  match o (.updateSecret env path key value) with
  | some f => (.error f, s, [.updateSecret env path key value])
  | none =>
    (.ok (), { s with secrets := setSecretL s.secrets env path key value },
     [.updateSecret env path key value])

/-- `delete_secret` of `InfisicalClient`. -/
def delete_secret (o : Oracle) (env key path : String) (s : Store) :
    Except Failure Unit × Store × List Op :=
  match o (.deleteSecret env path key) with
  | some f => (.error f, s, [.deleteSecret env path key])
  | none =>
    (.ok (),
     { s with secrets := s.secrets.filter fun r =>
        !(r.env == env && r.path == path && r.key == key) },
     [.deleteSecret env path key])

/-- `create_secret_import` of `InfisicalClient`. -/
def create_secret_import (o : Oracle) (env path import_env import_path : String)
    (s : Store) : Except Failure Unit × Store × List Op :=
  match o (.createImport env path import_env import_path) with
  | some f => (.error f, s, [.createImport env path import_env import_path])
  | none =>
    (.ok (),
     { s with imports := s.imports ++ [⟨s.nextId, env, path, import_env, import_path⟩],
              nextId := s.nextId + 1 },
     [.createImport env path import_env import_path])

/-- `delete_secret_import` of `InfisicalClient` (deletes by identifier). -/
def delete_secret_import (o : Oracle) (env path : String) (importId : Nat)
    (s : Store) : Except Failure Unit × Store × List Op :=
  match o (.deleteImport env path importId) with
  | some f => (.error f, s, [.deleteImport env path importId])
  | none =>
    (.ok (), { s with imports := s.imports.filter fun r => !(r.iid == importId) },
     [.deleteImport env path importId])

/-- The `for part in parts` loop of `ensure_folder_path`: list the current
parent, create the segment only when absent, descend with
`current_path = f"{current_path}{part}/"`. -/
def ensureParts (o : Oracle) (env : String) :
    List String → String → Store → Except Failure Unit × Store × List Op
  | [], _, s => (.ok (), s, [])
  | part :: rest, curPath, s =>
    match list_folders o env curPath s with
    | (.error f, s', t) => (.error f, s', t)
    | (.ok existing, s', t) =>
      if part ∈ existing.map Prod.snd then
        match ensureParts o env rest (curPath ++ part ++ "/") s' with
        | (r, s'', t') => (r, s'', t ++ t')
      else
        match create_folder o env part curPath s' with
        | (.error f, s'', t') => (.error f, s'', t ++ t')
        | (.ok _, s'', t') =>
          match ensureParts o env rest (curPath ++ part ++ "/") s'' with
          | (r, s''', t'') => (r, s''', t ++ t' ++ t'')

/-- `ensure_folder_path` of `InfisicalClient`: recursive "mkdir -p" over
`folder_path.strip("/").split("/")`, starting at `"/"`. -/
def ensure_folder_path (o : Oracle) (env folderPath : String) (s : Store) :
    Except Failure Unit × Store × List Op :=
  if folderPath = "/" ∨ folderPath = "" then (.ok (), s, [])
  else
    ensureParts o env
      ((splitSlash (stripSlash folderPath).data).map fun l => (⟨l⟩ : String))
      "/" s

/-- Per-key classification stats of `set_secrets_from_env`. -/
structure Stats where
  created : Nat
  updated : Nat
  unchanged : Nat
  failed : Nat
deriving Repr, DecidableEq

/-- Pointwise sum of stats dicts (`for k in total_stats: total_stats[k] += ...`). -/
def addStats (a b : Stats) : Stats :=
  ⟨a.created + b.created, a.updated + b.updated,
   a.unchanged + b.unchanged, a.failed + b.failed⟩

/-- The `for key, value in secrets.items()` loop of `set_secrets_from_env`:
classify each desired key against the `existing` snapshot, write in apply
mode, and catch a write failure as `failed`. -/
def setLoop (o : Oracle) (env path : String) (existing : List (String × String))
    (dryRun : Bool) : List (String × String) → Store → Stats × Store × List Op
  | [], s => (⟨0, 0, 0, 0⟩, s, [])
  | (key, value) :: rest, s =>
    match lookupD existing key with
    | some oldVal =>
      if oldVal ≠ value then
        if dryRun then
          match setLoop o env path existing dryRun rest s with
          | (st, s', t) => ({ st with updated := st.updated + 1 }, s', t)
        else
          match update_secret o env key value path s with
          | (.ok _, s', t) =>
            match setLoop o env path existing dryRun rest s' with
            | (st, s'', t') => ({ st with updated := st.updated + 1 }, s'', t ++ t')
          | (.error _, s', t) =>
            match setLoop o env path existing dryRun rest s' with
            | (st, s'', t') => ({ st with failed := st.failed + 1 }, s'', t ++ t')
      else
        match setLoop o env path existing dryRun rest s with
        | (st, s', t) => ({ st with unchanged := st.unchanged + 1 }, s', t)
    | none =>
      if dryRun then
        match setLoop o env path existing dryRun rest s with
        | (st, s', t) => ({ st with created := st.created + 1 }, s', t)
      else
        match create_secret o env key value path s with
        | (.ok _, s', t) =>
          match setLoop o env path existing dryRun rest s' with
          | (st, s'', t') => ({ st with created := st.created + 1 }, s'', t ++ t')
        | (.error _, s', t) =>
          match setLoop o env path existing dryRun rest s' with
          | (st, s'', t') => ({ st with failed := st.failed + 1 }, s'', t ++ t')

/-- `set_secrets_from_env` of `InfisicalClient`: parse the local file, return
zero stats when it is empty, else fetch the remote's current secrets fresh
(`existing = {s["secretKey"]: s for s in ...}`) and run the per-key loop. -/
def set_secrets_from_env (o : Oracle) (env : String) (fileLines : List String)
    (path : String) (dryRun : Bool) (s : Store) :
    Except Failure Stats × Store × List Op :=
  let secrets := parse_env_file fileLines
  if secrets.isEmpty then (.ok ⟨0, 0, 0, 0⟩, s, [])
  else
    match list_secrets o env path s with
    | (.error f, s', t) => (.error f, s', t)
    | (.ok listing, s', t) =>
      match setLoop o env path (dictOf listing) dryRun secrets s' with
      | (st, s'', t') => (.ok st, s'', t ++ t')

/-- `ensure_secret_import` of `InfisicalClient`: list the edges at
`(env, path)`; if one already targets `(import_env, import_path)` return
`False` (exists), else create it and return `True` (created). -/
def ensure_secret_import (o : Oracle) (env path import_env import_path : String)
    (s : Store) : Except Failure Bool × Store × List Op :=
  match list_secret_imports o env path s with
  | (.error f, s', t) => (.error f, s', t)
  | (.ok existing, s', t) =>
    if existing.any fun e => e.2.1 == import_env && e.2.2 == import_path then
      (.ok false, s', t)
    else
      match create_secret_import o env path import_env import_path s' with
      | (.error f, s'', t') => (.error f, s'', t ++ t')
      | (.ok _, s'', t') => (.ok true, s'', t ++ t')

/-- The `for imp in imports` loop of `delete_all_secret_imports`: each delete
is wrapped in `try`/`except Exception: pass`, counting only successes. -/
def deleteImportsLoop (o : Oracle) (env path : String) :
    List Nat → Store → Nat × Store × List Op
  | [], s => (0, s, [])
  | importId :: rest, s =>
    match delete_secret_import o env path importId s with
    | (.ok _, s', t) =>
      match deleteImportsLoop o env path rest s' with
      | (n, s'', t') => (n + 1, s'', t ++ t')
    | (.error _, s', t) =>
      match deleteImportsLoop o env path rest s' with
      | (n, s'', t') => (n, s'', t ++ t')

/-- `delete_all_secret_imports` of `InfisicalClient`: the listing itself is
not wrapped in a `try`, so its failure surfaces; per-item delete failures of
any class are swallowed by the loop. -/
def delete_all_secret_imports (o : Oracle) (env path : String) (s : Store) :
    Except Failure Nat × Store × List Op :=
  match list_secret_imports o env path s with
  | (.error f, s', t) => (.error f, s', t)
  | (.ok imps, s', t) =>
    match deleteImportsLoop o env path (imps.map Prod.fst) s' with
    | (n, s'', t') => (.ok n, s'', t ++ t')

/-- The `for secret in secrets` loop of step 2 of `delete_folder_recursive`:
each per-secret delete is wrapped in its own `try`/`except: pass`. -/
def deleteSecretsLoop (o : Oracle) (env path : String) :
    List String → Store → Store × List Op
  | [], s => (s, [])
  | key :: rest, s =>
    match delete_secret o env key path s with
    | (_, s', t) =>
      match deleteSecretsLoop o env path rest s' with
      | (s'', t') => (s'', t ++ t')

/-- The `for subfolder in subfolders` loop of step 3 of
`delete_folder_recursive`: one `try` wraps the whole loop, so a failing
recursive call aborts the remaining siblings (swallowed by the caller). -/
def runChildren (step : String → Store → Except Failure Bool × Store × List Op) :
    List String → Store → Store × List Op
  | [], s => (s, [])
  | nm :: rest, s =>
    match step nm s with
    | (.error _, s', t) => (s', t)
    | (.ok _, s', t) =>
      match runChildren step rest s' with
      | (s'', t') => (s'', t ++ t')

/-- The parent path computed in step 4 of `delete_folder_recursive`
(`"/" + "/".join(strip.split("/")[:-1])` when the stripped path contains a
slash, else `"/"`; the two branches coincide on this formula). -/
def parentOfStr (fp : String) : String :=
  ⟨'/' :: joinSlash ((splitSlash (stripSlash fp).data).dropLast)⟩

/-- The folder name computed in step 4 of `delete_folder_recursive`
(the last segment of the stripped path). -/
def lastPartStr (fp : String) : String :=
  ⟨(splitSlash (stripSlash fp).data).getLastD []⟩

/-- Step 2 of `delete_folder_recursive`: list the secrets under the path and
delete each (the whole block is wrapped in one `try`, so a listing failure is
swallowed; each per-secret delete has its own `try`). -/
def dfrSecretsPhase (o : Oracle) (env fp : String) (s : Store) : Store × List Op :=
  match list_secrets o env fp s with
  | (.error _, s', t) => (s', t)
  | (.ok secs, s', t) =>
    match deleteSecretsLoop o env fp (secs.map Prod.fst) s' with
    | (s'', t') => (s'', t ++ t')

/-- Step 3 of `delete_folder_recursive`: list the child folders and run
`step` on each child path (one `try` wraps the block, so a listing failure or
a failing recursive call is swallowed, the latter aborting the remaining
siblings). -/
def dfrChildrenPhase (o : Oracle)
    (step : String → Store → Except Failure Bool × Store × List Op)
    (env fp : String) (s : Store) : Store × List Op :=
  match list_folders o env fp s with
  | (.error _, s', t) => (s', t)
  | (.ok subs, s', t) =>
    match runChildren step (subs.map Prod.snd) s' with
    | (s'', t') => (s'', t ++ t')

/-- Step 4 of `delete_folder_recursive`: list the parent's children, find the
folder's identifier by name and delete it; these calls are not wrapped in a
`try`, so their failures surface. -/
def dfrFinalPhase (o : Oracle) (env fp : String) (s : Store) :
    Except Failure Bool × Store × List Op :=
  match list_folders o env (parentOfStr fp) s with
  | (.error f, s', t) => (.error f, s', t)
  | (.ok folders, s', t) =>
    match folders.find? fun g => g.2 == lastPartStr fp with
    | some g =>
      match delete_folder o env g.1 (parentOfStr fp) s' with
      | (.error f, s'', t') => (.error f, s'', t ++ t')
      | (.ok _, s'', t') => (.ok true, s'', t ++ t')
    | none => (.ok false, s', t)

/-- `delete_folder_recursive` of `InfisicalClient`, with recursion fuel (the
Python recursion is bounded by the live folder tree): rstrip the path and
refuse the root, then (1) delete the import edges (best-effort), (2) delete
the secrets under the path (best-effort), (3) recurse into the child folders
(best-effort, depth-first), (4) find the folder among its parent's children
and delete it. -/
def delete_folder_recursive (o : Oracle) :
    Nat → String → String → Store → Except Failure Bool × Store × List Op
  | 0, _, _, s => (.error .other, s, [])
  | fuel + 1, env, folderPath, s =>
    let fp := rstripSlash folderPath
    if fp = "" ∨ fp = "/" then (.ok false, s, [])
    else
      match delete_all_secret_imports o env fp s with
      | (_, s1, t1) =>
        match dfrSecretsPhase o env fp s1 with
        | (s2, t2) =>
          match
            dfrChildrenPhase o
              (fun nm st => delete_folder_recursive o fuel env (fp ++ "/" ++ nm) st)
              env fp s2 with
          | (s3, t3) =>
            match dfrFinalPhase o env fp s3 with
            | (r, s4, t4) => (r, s4, t1 ++ t2 ++ t3 ++ t4)

/-! ### The tree walker `import_env_files_recursive` -/

/-- A local directory tree handed to the recursive importer. Python processes
the sorted `*.env` files of a directory first, then its sorted
subdirectories; a tree is a base directory of env files (`mkdir`, pairing
each file's stem with its lines) extended by trailing subdirectories
(`addSub`), which keeps the traversal order and makes recursion structural. -/
inductive LocalTree where
  | mkdir (envFiles : List (String × List String)) : LocalTree
  | addSub (base : LocalTree) (dname : String) (sub : LocalTree) : LocalTree
deriving Repr

/-- The Infisical path targeted by a file with stem `stem` in a directory
mapped to `basePath`: the file name becomes the last path segment. -/
def targetPath (basePath stem : String) : String :=
  if basePath = "/" then "/" ++ stem else rstripSlash basePath ++ "/" ++ stem

/-- The `for env_file in sorted(base_dir.glob("*.env"))` loop of
`import_env_files_recursive`: for each file `ensure_folder_path` — note,
issued in dry-run mode as well — then `set_secrets_from_env`, summing the
stats; an uncaught failure propagates. -/
def envImportFiles (o : Oracle) (env : String) (dryRun : Bool) :
    List (String × List String) → String → Store →
      Except Failure Stats × Store × List Op
  | [], _, s => (.ok ⟨0, 0, 0, 0⟩, s, [])
  | (stem, lines) :: rest, basePath, s =>
    match ensure_folder_path o env (targetPath basePath stem) s with
    | (.error f, s', t) => (.error f, s', t)
    | (.ok _, s', t) =>
      match set_secrets_from_env o env lines (targetPath basePath stem) dryRun s' with
      | (.error f, s'', t') => (.error f, s'', t ++ t')
      | (.ok st, s'', t') =>
        match envImportFiles o env dryRun rest basePath s'' with
        | (.error f, s''', t'') => (.error f, s''', t ++ t' ++ t'')
        | (.ok strest, s''', t'') =>
          (.ok (addStats st strest), s''', t ++ t' ++ t'')

/-- `import_env_files_recursive` of `sync_to_infisical.py`: the files of the
directory first, then each subdirectory with
`sub_path = f"{base_path.rstrip('/')}/{subdir.name}"`. -/
def envImportRecursive (o : Oracle) (env : String) (dryRun : Bool) :
    LocalTree → String → Store → Except Failure Stats × Store × List Op
  | .mkdir files, basePath, s => envImportFiles o env dryRun files basePath s
  | .addSub base dname sub, basePath, s =>
    match envImportRecursive o env dryRun base basePath s with
    | (.error f, s', t) => (.error f, s', t)
    | (.ok st1, s', t) =>
      match
        envImportRecursive o env dryRun sub
          (rstripSlash basePath ++ "/" ++ dname) s' with
      | (.error f, s'', t') => (.error f, s'', t ++ t')
      | (.ok st2, s'', t') => (.ok (addStats st1 st2), s'', t ++ t')

/-- The `(targetPath, parsed file)` pairs of a tree, in traversal order. -/
def targetsOf : LocalTree → String → List (String × List (String × String))
  | .mkdir files, basePath =>
    files.map fun f => (targetPath basePath f.1, parse_env_file f.2)
  | .addSub base dname sub, basePath =>
    targetsOf base basePath ++ targetsOf sub (rstripSlash basePath ++ "/" ++ dname)

/-- The target paths of a tree, in traversal order. -/
def targetPathsOf (T : LocalTree) (basePath : String) : List String :=
  (targetsOf T basePath).map Prod.fst

/-- Total number of distinct keys over all files of the tree. -/
def totalKeys : LocalTree → Nat
  | .mkdir files => (files.map fun f => (parse_env_file f.2).length).sum
  | .addSub base _ sub => totalKeys base + totalKeys sub

/-! ### Claim C1: dry-run is not free of mutating calls -/

/-- Claim C1 (failing input): a dry-run of the recursive importer over a
local tree with one file `svc.env` containing `K=V`, against an empty remote
project, issues a real `create_folder` call — `import_env_files_recursive`
calls `ensure_folder_path` without a dry-run guard (unlike `sync_single_file`
and `sync_by_path`, which guard it with `if not dry_run`), so preview mode is
not free of mutating remote calls. -/
theorem c1_dry_run_issues_folder_creates :
    Op.createFolder "common" "/" "shared-secrets" ∈
      (envImportRecursive noFail "common" true
        (.mkdir [("svc", ["K=V"])]) "/shared-secrets" ⟨[], [], [], 0⟩).2.2 ∧
    ((envImportRecursive noFail "common" true
        (.mkdir [("svc", ["K=V"])]) "/shared-secrets" ⟨[], [], [], 0⟩).2.2.filter
      Op.isMutating).length = 2 := by
  constructor
  · decide
  · decide

/-! ### Claim C9: the root path is never deleted recursively -/

theorem dropWhile_eq_nil_of_all {p : Char → Bool} {l : List Char}
    (h : ∀ c ∈ l, p c = true) : l.dropWhile p = [] := by
  induction l with
  | nil => rfl
  | cons c cs ih =>
    rw [List.dropWhile_cons, if_pos (by rw [h c (List.mem_cons_self _ _)])]
    exact ih fun c hc => h c (List.mem_cons_of_mem _ hc)

theorem rstripSlash_eq_empty_of_all_slash {path : String}
    (h : ∀ c ∈ path.data, c = '/') : rstripSlash path = "" := by
  unfold rstripSlash
  have : path.data.reverse.dropWhile (fun c => c = '/') = [] :=
    dropWhile_eq_nil_of_all fun c hc => by
      rw [decide_eq_true_eq]
      exact h c (List.mem_reverse.1 hc)
  rw [this]
  rfl

/-- Claim C9: calling `delete_folder_recursive` on `/`, on the empty path,
or on any path consisting only of slashes returns `False` at once, issues no
remote call of any kind and leaves the store untouched. -/
theorem c9_root_delete_refused (o : Oracle) (n : Nat) (env path : String)
    (s : Store) (h : ∀ c ∈ path.data, c = '/') :
    delete_folder_recursive o (n + 1) env path s = (.ok false, s, []) := by
  have he := rstripSlash_eq_empty_of_all_slash h
  unfold delete_folder_recursive
  rw [he]
  simp

/-- Witness for C9 at the root path with one folder and one secret present. -/
theorem c9_root_delete_refused_witness :
    delete_folder_recursive noFail 3 "prod" "/"
        ⟨[⟨0, "prod", "/", "a"⟩], [⟨"prod", "/", "K", "v"⟩], [], 1⟩ =
      (.ok false, ⟨[⟨0, "prod", "/", "a"⟩], [⟨"prod", "/", "K", "v"⟩], [], 1⟩, []) :=
  c9_root_delete_refused noFail 2 "prod" "/"
    ⟨[⟨0, "prod", "/", "a"⟩], [⟨"prod", "/", "K", "v"⟩], [], 1⟩ (by decide)

/-! ### Claim C8: import idempotence -/

theorem list_secret_imports_noFail (env path : String) (s : Store) :
    list_secret_imports noFail env path s =
      (.ok (importsAt env path s), s, [.listImports env path]) := rfl

theorem list_folders_noFail (env path : String) (s : Store) :
    list_folders noFail env path s =
      (.ok (foldersAt env path s), s, [.listFolders env path]) := rfl

theorem list_secrets_noFail (env path : String) (s : Store) :
    list_secrets noFail env path s =
      (.ok (secretsAt env path s), s, [.listSecrets env path]) := rfl

theorem importsAt_append_edge (env path ienv ipath : String) (s : Store) :
    importsAt env path
        { s with imports := s.imports ++ [⟨s.nextId, env, path, ienv, ipath⟩],
                 nextId := s.nextId + 1 } =
      importsAt env path s ++ [(s.nextId, ienv, ipath)] := by
  unfold importsAt
  rw [importsAtL_append]
  simp [importsAtL]

/-- Number of import edges of the store with the given source and target. -/
def matchingImportCount (s : Store) (env path ienv ipath : String) : Nat :=
  (s.imports.filter fun r =>
    r.env == env && r.path == path &&
    r.importEnvSlug == ienv && r.importPath == ipath).length

theorem matchingImportCount_append_edge (env path ienv ipath : String) (s : Store) :
    matchingImportCount
        { s with imports := s.imports ++ [⟨s.nextId, env, path, ienv, ipath⟩],
                 nextId := s.nextId + 1 } env path ienv ipath =
      matchingImportCount s env path ienv ipath + 1 := by
  unfold matchingImportCount
  rw [List.filter_append]
  simp


theorem ensure_secret_import_exists_branch (env path ienv ipath : String)
    (s : Store)
    (hany : (importsAt env path s).any
      (fun e => e.2.1 == ienv && e.2.2 == ipath) = true) :
    ensure_secret_import noFail env path ienv ipath s =
      (.ok false, s, [.listImports env path]) := by
  unfold ensure_secret_import
  rw [list_secret_imports_noFail]
  exact if_pos hany

theorem ensure_secret_import_create_branch (env path ienv ipath : String)
    (s : Store)
    (hany : (importsAt env path s).any
      (fun e => e.2.1 == ienv && e.2.2 == ipath) = false) :
    ensure_secret_import noFail env path ienv ipath s =
      (.ok true,
       { s with imports := s.imports ++ [⟨s.nextId, env, path, ienv, ipath⟩],
                nextId := s.nextId + 1 },
       [.listImports env path, .createImport env path ienv ipath]) := by
  unfold ensure_secret_import
  rw [list_secret_imports_noFail]
  exact if_neg (by rw [hany]; exact Bool.false_ne_true)

/-- Claim C8: two successive identical `ensure_secret_import` calls create at
most one edge. If a matching edge already exists, the call creates nothing
and reports "exists" (`False`); otherwise it creates exactly one edge and
reports "created" (`True`); and the second of two identical calls always
reports "exists", leaves the store unchanged and issues no mutating call. -/
theorem c8_ensure_import_idempotent (env path ienv ipath : String) (s : Store) :
    ((ensure_secret_import noFail env path ienv ipath
        (ensure_secret_import noFail env path ienv ipath s).2.1).1 = .ok false) ∧
    ((ensure_secret_import noFail env path ienv ipath
        (ensure_secret_import noFail env path ienv ipath s).2.1).2.1 =
      (ensure_secret_import noFail env path ienv ipath s).2.1) ∧
    (∀ op ∈ (ensure_secret_import noFail env path ienv ipath
        (ensure_secret_import noFail env path ienv ipath s).2.1).2.2,
      op.isMutating = false) ∧
    ((importsAt env path s).any
        (fun e => e.2.1 == ienv && e.2.2 == ipath) = true →
      ensure_secret_import noFail env path ienv ipath s =
        (.ok false, s, [.listImports env path])) ∧
    ((importsAt env path s).any
        (fun e => e.2.1 == ienv && e.2.2 == ipath) = false →
      (ensure_secret_import noFail env path ienv ipath s).1 = .ok true) ∧
    (matchingImportCount
        (ensure_secret_import noFail env path ienv ipath
          (ensure_secret_import noFail env path ienv ipath s).2.1).2.1
        env path ienv ipath ≤
      matchingImportCount s env path ienv ipath + 1) := by
  by_cases hany : (importsAt env path s).any
      (fun e => e.2.1 == ienv && e.2.2 == ipath) = true
  · have hfirst := ensure_secret_import_exists_branch env path ienv ipath s hany
    have hs1 : (ensure_secret_import noFail env path ienv ipath s).2.1 = s := by
      rw [hfirst]
    have hsecond : ensure_secret_import noFail env path ienv ipath
        (ensure_secret_import noFail env path ienv ipath s).2.1 =
        (.ok false, s, [.listImports env path]) := by
      rw [hs1, hfirst]
    refine ⟨by rw [hsecond], by rw [hsecond, hs1], ?_, fun _ => hfirst,
      fun hc => absurd hany (by rw [hc]; exact Bool.false_ne_true), ?_⟩
    · intro op hop
      rw [hsecond] at hop
      rcases List.mem_singleton.1 hop with rfl
      rfl
    · rw [hsecond]
      exact Nat.le_add_right _ _
  · have hf : (importsAt env path s).any
        (fun e => e.2.1 == ienv && e.2.2 == ipath) = false :=
      Bool.eq_false_iff.2 hany
    have hfirst := ensure_secret_import_create_branch env path ienv ipath s hf
    have hs1 : (ensure_secret_import noFail env path ienv ipath s).2.1 =
        { s with imports := s.imports ++ [⟨s.nextId, env, path, ienv, ipath⟩],
                 nextId := s.nextId + 1 } := by
      rw [hfirst]
    have hany1 : (importsAt env path
        (ensure_secret_import noFail env path ienv ipath s).2.1).any
        (fun e => e.2.1 == ienv && e.2.2 == ipath) = true := by
      rw [hs1, importsAt_append_edge, List.any_append]
      simp
    have hsecond := ensure_secret_import_exists_branch env path ienv ipath
      (ensure_secret_import noFail env path ienv ipath s).2.1 hany1
    refine ⟨by rw [hsecond], by rw [hsecond], ?_, fun hc => absurd hc hany,
      fun _ => by rw [hfirst], ?_⟩
    · intro op hop
      rw [hsecond] at hop
      rcases List.mem_singleton.1 hop with rfl
      rfl
    · rw [hsecond, hs1, matchingImportCount_append_edge]

/-! ### Claim C5: what idempotent deletion really swallows -/

/-- Counterexample to C5 as stated: an authorization failure (not a
"not found") of the per-item import delete is swallowed —
`delete_all_secret_imports` still returns success (count 0) and the edge is
still present, so non-not-found failure classes are not surfaced. -/
theorem c5_only_notfound_surfaced_counterexample :
    (delete_all_secret_imports
        (fun op => match op with
          | .deleteImport _ _ _ => some .auth
          | _ => none)
        "prod" "/p" ⟨[], [], [⟨7, "prod", "/p", "common", "/p"⟩], 8⟩).1 =
      .ok 0 ∧
    (delete_all_secret_imports
        (fun op => match op with
          | .deleteImport _ _ _ => some .auth
          | _ => none)
        "prod" "/p" ⟨[], [], [⟨7, "prod", "/p", "common", "/p"⟩], 8⟩).2.1.imports =
      [⟨7, "prod", "/p", "common", "/p"⟩] := by
  constructor
  · decide
  · decide

theorem dropWhile_idem (p : Char → Bool) (l : List Char) :
    (l.dropWhile p).dropWhile p = l.dropWhile p := by
  induction l with
  | nil => rfl
  | cons c cs ih =>
    by_cases h : p c = true
    · simp [List.dropWhile_cons, h, ih]
    · simp [List.dropWhile_cons, h]

theorem rstripSlash_idem (p : String) :
    rstripSlash (rstripSlash p) = rstripSlash p := by
  simp only [rstripSlash, List.reverse_reverse, dropWhile_idem]

theorem stripSlash_rstripSlash (p : String) :
    stripSlash (rstripSlash p) = stripSlash p := by
  simp only [stripSlash, rstripSlash_idem]

theorem parentOfStr_rstripSlash (p : String) :
    parentOfStr (rstripSlash p) = parentOfStr p := by
  simp only [parentOfStr, stripSlash_rstripSlash]

theorem dfrFinalPhase_ok (o : Oracle) (env fp : String) (s : Store)
    (hpf : o (.listFolders env (parentOfStr fp)) = none)
    (hdf : ∀ fid, o (.deleteFolder env fid (parentOfStr fp)) = none) :
    ∃ b, (dfrFinalPhase o env fp s).1 = .ok b := by
  unfold dfrFinalPhase
  split
  · rename_i f s' t heq
    unfold list_folders at heq
    rw [hpf] at heq
    simp at heq
  · rename_i folders s' t heq
    split
    · rename_i g hf
      split
      · rename_i f s'' t' heq2
        unfold delete_folder at heq2
        rw [hdf g.1] at heq2
        simp at heq2
      · exact ⟨true, rfl⟩
    · exact ⟨false, rfl⟩

theorem dfr_succ_eq_final (o : Oracle) (fuel : Nat) (env p : String) (s : Store)
    (hroot : ¬(rstripSlash p = "" ∨ rstripSlash p = "/")) :
    ∃ s3 : Store, (delete_folder_recursive o (fuel + 1) env p s).1 =
      (dfrFinalPhase o env (rstripSlash p) s3).1 := by
  simp only [delete_folder_recursive]
  rw [if_neg hroot]
  exact ⟨_, rfl⟩

/-- Claim C5, amended: the idempotent deletes swallow every failure class in
their per-item steps, not just "not found". `delete_all_secret_imports`
surfaces a failure only when its (un-wrapped) listing fails, and
`delete_folder_recursive` only when the final parent listing or folder delete
fails; per-secret and per-import delete failures of any class never surface. -/
theorem c5_idempotent_deletes_swallow_all_classes (o : Oracle) (fuel : Nat)
    (env path path2 : String) (s s2 : Store)
    (hlist : o (.listImports env path) = none)
    (hpf : o (.listFolders env (parentOfStr path2)) = none)
    (hdf : ∀ fid, o (.deleteFolder env fid (parentOfStr path2)) = none) :
    (∃ n, (delete_all_secret_imports o env path s).1 = .ok n) ∧
    (∃ b, (delete_folder_recursive o (fuel + 1) env path2 s2).1 = .ok b) := by
  constructor
  · unfold delete_all_secret_imports list_secret_imports
    rw [hlist]
    exact ⟨_, rfl⟩
  · by_cases hroot : rstripSlash path2 = "" ∨ rstripSlash path2 = "/"
    · refine ⟨false, ?_⟩
      simp only [delete_folder_recursive]
      rw [if_pos hroot]
    · obtain ⟨s3, he⟩ := dfr_succ_eq_final o fuel env path2 s2 hroot
      rw [he]
      exact dfrFinalPhase_ok o env (rstripSlash path2) s3
        (by rw [parentOfStr_rstripSlash]; exact hpf)
        (fun fid => by rw [parentOfStr_rstripSlash]; exact hdf fid)

/-- Witness for the amended C5: per-secret deletes fail with transport errors
and per-import deletes with authorization errors, yet both idempotent delete
operations report success. -/
theorem c5_idempotent_deletes_swallow_all_classes_witness :
    (∃ n, (delete_all_secret_imports
        (fun op => match op with
          | .deleteSecret _ _ _ => some .transport
          | .deleteImport _ _ _ => some .auth
          | _ => none)
        "prod" "/p" ⟨[], [], [⟨7, "prod", "/p", "common", "/p"⟩], 8⟩).1 = .ok n) ∧
    (∃ b, (delete_folder_recursive
        (fun op => match op with
          | .deleteSecret _ _ _ => some .transport
          | .deleteImport _ _ _ => some .auth
          | _ => none)
        (2 + 1) "prod" "/a"
        ⟨[⟨0, "prod", "/", "a"⟩], [⟨"prod", "/a", "K", "v"⟩],
         [⟨7, "prod", "/a", "common", "/a"⟩], 8⟩).1 = .ok b) :=
  c5_idempotent_deletes_swallow_all_classes
    (fun op => match op with
      | .deleteSecret _ _ _ => some .transport
      | .deleteImport _ _ _ => some .auth
      | _ => none)
    2 "prod" "/p" "/a" ⟨[], [], [⟨7, "prod", "/p", "common", "/p"⟩], 8⟩
    ⟨[⟨0, "prod", "/", "a"⟩], [⟨"prod", "/a", "K", "v"⟩],
     [⟨7, "prod", "/a", "common", "/a"⟩], 8⟩
    rfl rfl (fun _ => rfl)

/-! ### Claim C2: reconcile classification -/

/-- Keys of the desired mapping absent from the remote mapping. -/
def countCreated (D R : List (String × String)) : Nat :=
  (D.filter fun kv => (lookupD R kv.1).isNone).length

/-- Keys of the desired mapping present remotely with a differing value. -/
def countUpdated (D R : List (String × String)) : Nat :=
  (D.filter fun kv =>
    match lookupD R kv.1 with
    | some w => !(w == kv.2)
    | none => false).length

/-- Keys of the desired mapping present remotely with an equal value. -/
def countUnchanged (D R : List (String × String)) : Nat :=
  (D.filter fun kv =>
    match lookupD R kv.1 with
    | some w => w == kv.2
    | none => false).length

theorem lookupD_secretsAtL_setSecretL_self (secs : List SecretRec)
    (env path key value : String) :
    lookupD (secretsAtL env path (setSecretL secs env path key value)) key =
      some value := by
  induction secs with
  | nil => simp [setSecretL, secretsAtL, lookupD]
  | cons r rest ih =>
    by_cases hm : r.env = env ∧ r.path = path ∧ r.key = key
    · simp only [setSecretL, if_pos hm, secretsAtL, and_self, if_true, if_pos]
      simp [lookupD]
    · simp only [setSecretL, if_neg hm, secretsAtL]
      by_cases hf : r.env = env ∧ r.path = path
      · have hk : ¬(r.key = key) := fun hk => hm ⟨hf.1, hf.2, hk⟩
        rw [if_pos hf]
        simp [lookupD, hk, ih]
      · rw [if_neg hf]
        exact ih

theorem lookupD_secretsAtL_setSecretL_frame (secs : List SecretRec)
    (env path key value env' path' k : String)
    (h : ¬(env' = env ∧ path' = path ∧ k = key)) :
    lookupD (secretsAtL env' path' (setSecretL secs env path key value)) k =
      lookupD (secretsAtL env' path' secs) k := by
  induction secs with
  | nil =>
    simp only [setSecretL, secretsAtL]
    by_cases hf : env = env' ∧ path = path'
    · have hk : ¬(key = k) := fun he => h ⟨hf.1.symm, hf.2.symm, he.symm⟩
      rw [if_pos hf]
      simp [lookupD, hk]
    · rw [if_neg hf]
  | cons r rest ih =>
    by_cases hm : r.env = env ∧ r.path = path ∧ r.key = key
    · simp only [setSecretL, if_pos hm, secretsAtL]
      by_cases hf : env = env' ∧ path = path'
      · have hf2 : r.env = env' ∧ r.path = path' := ⟨hm.1.trans hf.1, hm.2.1.trans hf.2⟩
        have hk : ¬(key = k) := fun he => h ⟨hf.1.symm, hf.2.symm, he.symm⟩
        have hk2 : ¬(r.key = k) := fun he => hk (hm.2.2 ▸ he)
        rw [if_pos hf, if_pos hf2]
        simp only [lookupD]
        rw [if_neg hk, if_neg hk2]
      · have hf2 : ¬(r.env = env' ∧ r.path = path') :=
          fun hc => hf ⟨hm.1.symm.trans hc.1, hm.2.1.symm.trans hc.2⟩
        rw [if_neg hf, if_neg hf2]
    · simp only [setSecretL, if_neg hm, secretsAtL]
      by_cases hf : r.env = env' ∧ r.path = path'
      · rw [if_pos hf, if_pos hf]
        by_cases hk : r.key = k
        · simp [lookupD, hk]
        · simp [lookupD, hk, ih]
      · rw [if_neg hf, if_neg hf]
        exact ih

theorem lookupD_secretsAt_set_self (s : Store) (env path key value : String) :
    lookupD (secretsAt env path
      { s with secrets := setSecretL s.secrets env path key value }) key =
      some value := by
  obtain ⟨fs, secs, imps, nid⟩ := s
  exact lookupD_secretsAtL_setSecretL_self secs env path key value

theorem lookupD_secretsAt_set_frame (s : Store) (env path key value env' path' k : String)
    (h : ¬(env' = env ∧ path' = path ∧ k = key)) :
    lookupD (secretsAt env' path'
      { s with secrets := setSecretL s.secrets env path key value }) k =
      lookupD (secretsAt env' path' s) k := by
  obtain ⟨fs, secs, imps, nid⟩ := s
  exact lookupD_secretsAtL_setSecretL_frame secs env path key value env' path' k h

/-- Under `noFail`, the reconcile loop classifies every desired key against
the `existing` snapshot exactly as the created/updated/unchanged counting
predicates do, and nothing fails. -/
theorem setLoop_noFail_stats (env path : String) (R D : List (String × String))
    (s : Store) :
    (setLoop noFail env path R false D s).1 =
      ⟨countCreated D R, countUpdated D R, countUnchanged D R, 0⟩ := by
  induction D generalizing s with
  | nil => rfl
  | cons kv rest ih =>
    obtain ⟨key, value⟩ := kv
    rcases hR : lookupD R key with _ | oldVal
    · simp only [setLoop, hR, Bool.false_eq_true, if_false, create_secret, noFail]
      rcases hrec : setLoop noFail env path R false rest
          { s with secrets := setSecretL s.secrets env path key value } with ⟨st, s2, t2⟩
      have hst : st = ⟨countCreated rest R, countUpdated rest R, countUnchanged rest R, 0⟩ := by
        have h := ih { s with secrets := setSecretL s.secrets env path key value }
        rw [hrec] at h
        exact h
      rw [hst]
      simp [countCreated, countUpdated, countUnchanged, hR]
    · by_cases hv : oldVal = value
      · simp only [setLoop, hR, if_neg (not_not_intro hv)]
        rcases hrec : setLoop noFail env path R false rest s with ⟨st, s2, t2⟩
        have hst : st = ⟨countCreated rest R, countUpdated rest R, countUnchanged rest R, 0⟩ := by
          have h := ih s
          rw [hrec] at h
          exact h
        rw [hst]
        simp [countCreated, countUpdated, countUnchanged, hR, hv]
      · simp only [setLoop, hR, if_pos hv, Bool.false_eq_true, if_false,
          update_secret, noFail]
        rcases hrec : setLoop noFail env path R false rest
            { s with secrets := setSecretL s.secrets env path key value } with ⟨st, s2, t2⟩
        have hst : st = ⟨countCreated rest R, countUpdated rest R, countUnchanged rest R, 0⟩ := by
          have h := ih { s with secrets := setSecretL s.secrets env path key value }
          rw [hrec] at h
          exact h
        rw [hst]
        simp [countCreated, countUpdated, countUnchanged, hR, hv]

/-- For any oracle and any mode, the reconcile loop never touches a secret
whose key is not among the desired keys: its looked-up value at every
`(env, path)` scope is unchanged. -/
theorem setLoop_frame (o : Oracle) (env path : String)
    (R : List (String × String)) (dry : Bool) (D : List (String × String))
    (s : Store) (env' path' k : String) (hk : k ∉ D.map Prod.fst) :
    lookupD (secretsAt env' path' (setLoop o env path R dry D s).2.1) k =
      lookupD (secretsAt env' path' s) k := by
  induction D generalizing s with
  | nil => rfl
  | cons kv rest ih =>
    obtain ⟨key, value⟩ := kv
    have hkne : k ≠ key := by
      intro he
      exact hk (by rw [List.map_cons, he]; exact List.mem_cons_self _ _)
    have hkrest : k ∉ rest.map Prod.fst := fun hm =>
      hk (by rw [List.map_cons]; exact List.mem_cons_of_mem _ hm)
    have hset : ∀ s' : Store,
        lookupD (secretsAt env' path'
          { s' with secrets := setSecretL s'.secrets env path key value }) k =
          lookupD (secretsAt env' path' s') k := fun s' =>
      lookupD_secretsAt_set_frame s' env path key value env' path' k
        (fun hc => hkne hc.2.2)
    rcases hR : lookupD R key with _ | oldVal
    · cases dry with
      | true =>
        simp only [setLoop, hR, if_true]
        rcases hrec : setLoop o env path R true rest s with ⟨st, s2, t2⟩
        have h := ih s hkrest
        rw [hrec] at h
        exact h
      | false =>
        simp only [setLoop, hR, Bool.false_eq_true, if_false, create_secret]
        rcases ho : o (.createSecret env path key value) with _ | f
        · simp only
          rcases hrec : setLoop o env path R false rest
              { s with secrets := setSecretL s.secrets env path key value } with ⟨st, s2, t2⟩
          have h := ih { s with secrets := setSecretL s.secrets env path key value } hkrest
          rw [hrec] at h
          exact h.trans (hset s)
        · simp only
          rcases hrec : setLoop o env path R false rest s with ⟨st, s2, t2⟩
          have h := ih s hkrest
          rw [hrec] at h
          exact h
    · by_cases hv : oldVal = value
      · simp only [setLoop, hR, if_neg (not_not_intro hv)]
        rcases hrec : setLoop o env path R dry rest s with ⟨st, s2, t2⟩
        have h := ih s hkrest
        rw [hrec] at h
        exact h
      · cases dry with
        | true =>
          simp only [setLoop, hR, if_pos hv, if_true]
          rcases hrec : setLoop o env path R true rest s with ⟨st, s2, t2⟩
          have h := ih s hkrest
          rw [hrec] at h
          exact h
        | false =>
          simp only [setLoop, hR, if_pos hv, Bool.false_eq_true, if_false,
            update_secret]
          rcases ho : o (.updateSecret env path key value) with _ | f
          · simp only
            rcases hrec : setLoop o env path R false rest
                { s with secrets := setSecretL s.secrets env path key value } with ⟨st, s2, t2⟩
            have h := ih { s with secrets := setSecretL s.secrets env path key value } hkrest
            rw [hrec] at h
            exact h.trans (hset s)
          · simp only
            rcases hrec : setLoop o env path R false rest s with ⟨st, s2, t2⟩
            have h := ih s hkrest
            rw [hrec] at h
            exact h

/-- Every remote call made by the reconcile loop is a secret create or a
secret update at the loop's own `(env, path)` for one of the desired keys —
in particular it never deletes anything and never touches remote-only keys. -/
theorem setLoop_ops (o : Oracle) (env path : String)
    (R : List (String × String)) (dry : Bool) (D : List (String × String))
    (s : Store) :
    ∀ op ∈ (setLoop o env path R dry D s).2.2,
      ∃ key value, key ∈ D.map Prod.fst ∧
        (op = .createSecret env path key value ∨
         op = .updateSecret env path key value) := by
  induction D generalizing s with
  | nil => intro op hop; simp [setLoop] at hop
  | cons kv rest ih =>
    obtain ⟨key, value⟩ := kv
    have weaken : ∀ op,
        (∃ k v, k ∈ rest.map Prod.fst ∧
          (op = Op.createSecret env path k v ∨ op = Op.updateSecret env path k v)) →
        ∃ k v, k ∈ ((key, value) :: rest).map Prod.fst ∧
          (op = Op.createSecret env path k v ∨ op = Op.updateSecret env path k v) := by
      intro op hex
      obtain ⟨k, v, hm, hor⟩ := hex
      exact ⟨k, v, by rw [List.map_cons]; exact List.mem_cons_of_mem _ hm, hor⟩
    have hkmem : key ∈ ((key, value) :: rest).map Prod.fst := by
      rw [List.map_cons]; exact List.mem_cons_self _ _
    intro op hop
    rcases hR : lookupD R key with _ | oldVal
    · cases dry with
      | true =>
        simp only [setLoop, hR, if_true] at hop
        rcases hrec : setLoop o env path R true rest s with ⟨st, s2, t2⟩
        rw [hrec] at hop
        have h := ih s op
        rw [hrec] at h
        exact weaken op (h hop)
      | false =>
        simp only [setLoop, hR, Bool.false_eq_true, if_false, create_secret] at hop
        rcases ho : o (.createSecret env path key value) with _ | f
        · rw [ho] at hop
          simp only at hop
          rcases hrec : setLoop o env path R false rest
              { s with secrets := setSecretL s.secrets env path key value } with ⟨st, s2, t2⟩
          rw [hrec] at hop
          simp only [List.mem_append, List.mem_singleton] at hop
          rcases hop with hop | hop
          · cases hop
            exact ⟨key, value, hkmem, Or.inl rfl⟩
          · have h := ih { s with secrets := setSecretL s.secrets env path key value } op
            rw [hrec] at h
            exact weaken op (h hop)
        · rw [ho] at hop
          simp only at hop
          rcases hrec : setLoop o env path R false rest s with ⟨st, s2, t2⟩
          rw [hrec] at hop
          simp only [List.mem_append, List.mem_singleton] at hop
          rcases hop with hop | hop
          · cases hop
            exact ⟨key, value, hkmem, Or.inl rfl⟩
          · have h := ih s op
            rw [hrec] at h
            exact weaken op (h hop)
    · by_cases hv : oldVal = value
      · simp only [setLoop, hR, if_neg (not_not_intro hv)] at hop
        rcases hrec : setLoop o env path R dry rest s with ⟨st, s2, t2⟩
        rw [hrec] at hop
        have h := ih s op
        rw [hrec] at h
        exact weaken op (h hop)
      · cases dry with
        | true =>
          simp only [setLoop, hR, if_pos hv, if_true] at hop
          rcases hrec : setLoop o env path R true rest s with ⟨st, s2, t2⟩
          rw [hrec] at hop
          have h := ih s op
          rw [hrec] at h
          exact weaken op (h hop)
        | false =>
          simp only [setLoop, hR, if_pos hv, Bool.false_eq_true, if_false,
            update_secret] at hop
          rcases ho : o (.updateSecret env path key value) with _ | f
          · rw [ho] at hop
            simp only at hop
            rcases hrec : setLoop o env path R false rest
                { s with secrets := setSecretL s.secrets env path key value } with ⟨st, s2, t2⟩
            rw [hrec] at hop
            simp only [List.mem_append, List.mem_singleton] at hop
            rcases hop with hop | hop
            · cases hop
              exact ⟨key, value, hkmem, Or.inr rfl⟩
            · have h := ih { s with secrets := setSecretL s.secrets env path key value } op
              rw [hrec] at h
              exact weaken op (h hop)
          · rw [ho] at hop
            simp only at hop
            rcases hrec : setLoop o env path R false rest s with ⟨st, s2, t2⟩
            rw [hrec] at hop
            simp only [List.mem_append, List.mem_singleton] at hop
            rcases hop with hop | hop
            · cases hop
              exact ⟨key, value, hkmem, Or.inr rfl⟩
            · have h := ih s op
              rw [hrec] at h
              exact weaken op (h hop)

/-- **C2.** Reconcile classification: for a reconcile call over the desired
mapping `D = parse_env_file fileLines` and the remote's current mapping
`R = dictOf (secretsAt env path s)` fetched fresh for the same
`(env, path)`, (1) under a failure-free oracle the reported stats classify
every key of `D` absent from `R` as created, present-with-differing-value
as updated, present-with-equal-value as unchanged, with zero failures;
(2) for every oracle and mode, a key outside `D` is never written, updated
or deleted — its stored value at every scope is unchanged; (3) every remote
call issued is the fresh listing or a create/update of a desired key at this
`(env, path)` (never a delete); and (4) for desired `{A:1, B:2}` against
remote `{B:2, C:3}`: created = 1 (A), updated = 0, unchanged = 1 (B), and
`C` keeps value `3`. -/
theorem c2_reconcile_classification (env path : String) (fileLines : List String)
    (s : Store) (env' path' k : String) :
    ((set_secrets_from_env noFail env fileLines path false s).1 =
      .ok ⟨countCreated (parse_env_file fileLines) (dictOf (secretsAt env path s)),
           countUpdated (parse_env_file fileLines) (dictOf (secretsAt env path s)),
           countUnchanged (parse_env_file fileLines) (dictOf (secretsAt env path s)),
           0⟩) ∧
    (∀ (o : Oracle) (dry : Bool),
      k ∉ (parse_env_file fileLines).map Prod.fst →
      lookupD (secretsAt env' path'
          (set_secrets_from_env o env fileLines path dry s).2.1) k =
        lookupD (secretsAt env' path' s) k) ∧
    (∀ (o : Oracle) (dry : Bool) (op : Op),
      op ∈ (set_secrets_from_env o env fileLines path dry s).2.2 →
      op = .listSecrets env path ∨
        ∃ key value, key ∈ (parse_env_file fileLines).map Prod.fst ∧
          (op = .createSecret env path key value ∨
           op = .updateSecret env path key value)) ∧
    ((set_secrets_from_env noFail "prod" ["A=1", "B=2"] "/p" false
        ⟨[], [⟨"prod", "/p", "B", "2"⟩, ⟨"prod", "/p", "C", "3"⟩], [], 0⟩).1 =
      .ok ⟨1, 0, 1, 0⟩) ∧
    (lookupD (secretsAt "prod" "/p"
        (set_secrets_from_env noFail "prod" ["A=1", "B=2"] "/p" false
          ⟨[], [⟨"prod", "/p", "B", "2"⟩, ⟨"prod", "/p", "C", "3"⟩], [], 0⟩).2.1)
        "C" = some "3") := by
  refine ⟨?_, ?_, ?_, by decide, by decide⟩
  · simp only [set_secrets_from_env]
    by_cases hD : (parse_env_file fileLines).isEmpty
    · rw [if_pos hD]
      have hnil : parse_env_file fileLines = [] := by
        cases h : parse_env_file fileLines with
        | nil => rfl
        | cons a l => rw [h] at hD; simp [List.isEmpty] at hD
      rw [hnil]
      rfl
    · rw [if_neg hD]
      simp only [list_secrets, noFail]
      rcases hrec : setLoop noFail env path (dictOf (secretsAt env path s)) false
          (parse_env_file fileLines) s with ⟨st, s2, t2⟩
      have h := setLoop_noFail_stats env path (dictOf (secretsAt env path s))
        (parse_env_file fileLines) s
      rw [hrec] at h
      exact congrArg Except.ok h
  · intro o dry hk
    simp only [set_secrets_from_env]
    by_cases hD : (parse_env_file fileLines).isEmpty
    · rw [if_pos hD]
    · rw [if_neg hD]
      simp only [list_secrets]
      rcases ho : o (.listSecrets env path) with _ | f
      · simp only
        rcases hrec : setLoop o env path (dictOf (secretsAt env path s)) dry
            (parse_env_file fileLines) s with ⟨st, s2, t2⟩
        have h := setLoop_frame o env path (dictOf (secretsAt env path s)) dry
          (parse_env_file fileLines) s env' path' k hk
        rw [hrec] at h
        exact h
      · simp only
  · intro o dry op hop
    simp only [set_secrets_from_env] at hop
    by_cases hD : (parse_env_file fileLines).isEmpty
    · rw [if_pos hD] at hop
      simp at hop
    · rw [if_neg hD] at hop
      simp only [list_secrets] at hop
      rcases ho : o (.listSecrets env path) with _ | f
      · rw [ho] at hop
        simp only at hop
        rcases hrec : setLoop o env path (dictOf (secretsAt env path s)) dry
            (parse_env_file fileLines) s with ⟨st, s2, t2⟩
        rw [hrec] at hop
        simp only [List.mem_append, List.mem_singleton] at hop
        rcases hop with hop | hop
        · exact Or.inl hop
        · have h := setLoop_ops o env path (dictOf (secretsAt env path s)) dry
            (parse_env_file fileLines) s op
          rw [hrec] at h
          exact Or.inr (h hop)
      · rw [ho] at hop
        simp only [List.mem_singleton] at hop
        exact Or.inl hop

/-! ### Claim C6: deletion ordering -/

theorem splitSlash_ne_nil (l : List Char) : splitSlash l ≠ [] := by
  cases l with
  | nil => simp [splitSlash]
  | cons c cs =>
    simp only [splitSlash]
    by_cases h : c = '/'
    · rw [if_pos h]; simp
    · rw [if_neg h]
      cases splitSlash cs <;> simp

theorem splitSlash_no_slash (l : List Char) (h : '/' ∉ l) : splitSlash l = [l] := by
  induction l with
  | nil => rfl
  | cons c cs ih =>
    have hc : ¬(c = '/') := fun he => h (by rw [← he]; exact List.mem_cons_self _ _)
    simp only [splitSlash, if_neg hc]
    rw [ih (fun hm => h (List.mem_cons_of_mem _ hm))]

theorem splitSlash_append_sep (l nm : List Char) (h : '/' ∉ nm) :
    splitSlash (l ++ '/' :: nm) = splitSlash l ++ [nm] := by
  induction l with
  | nil =>
    simp only [List.nil_append, splitSlash, if_pos rfl]
    rw [splitSlash_no_slash nm h]
    rfl
  | cons c cs ih =>
    by_cases hc : c = '/'
    · simp only [List.cons_append, splitSlash, if_pos hc, List.append_eq, ih,
        List.cons_append]
    · simp only [List.cons_append, splitSlash, if_neg hc, List.append_eq, ih]
      rcases hcs : splitSlash cs with _ | ⟨h1, t1⟩
      · exact absurd hcs (splitSlash_ne_nil cs)
      · simp [List.cons_append]

theorem joinSlash_splitSlash (l : List Char) : joinSlash (splitSlash l) = l := by
  induction l with
  | nil => rfl
  | cons c cs ih =>
    by_cases hc : c = '/'
    · simp only [splitSlash, if_pos hc]
      rcases hcs : splitSlash cs with _ | ⟨h1, t1⟩
      · exact absurd hcs (splitSlash_ne_nil cs)
      · subst hc
        rw [hcs] at ih
        simp [joinSlash, ih]
    · simp only [splitSlash, if_neg hc]
      rcases hcs : splitSlash cs with _ | ⟨h1, t1⟩
      · exact absurd hcs (splitSlash_ne_nil cs)
      · rw [hcs] at ih
        cases t1 with
        | nil =>
          simp only [joinSlash] at ih ⊢
          rw [ih]
        | cons h2 t2 =>
          simp only [joinSlash] at ih ⊢
          rw [List.cons_append, ih]

theorem joinSlash_concat (xs : List (List Char)) (y : List Char) :
    joinSlash (xs ++ [y]) = if xs = [] then y else joinSlash xs ++ '/' :: y := by
  induction xs with
  | nil => simp [joinSlash]
  | cons x xs ih =>
    cases xs with
    | nil => simp [joinSlash]
    | cons x2 t =>
      have e1 : (x :: x2 :: t) ++ [y] = x :: ((x2 :: t) ++ [y]) := by simp
      rw [e1]
      have e2 : x :: ((x2 :: t) ++ [y]) = x :: x2 :: (t ++ [y]) := by simp
      rw [e2]
      simp only [joinSlash]
      have e3 : x2 :: (t ++ [y]) = (x2 :: t) ++ [y] := by simp
      rw [e3, ih]
      simp [joinSlash, List.append_assoc]

theorem dropWhile_append_of_exists {p : Char → Bool} (l r : List Char)
    (h : ∃ a ∈ l, ¬p a = true) :
    (l ++ r).dropWhile p = l.dropWhile p ++ r := by
  induction l with
  | nil =>
    obtain ⟨a, ha, _⟩ := h
    simp at ha
  | cons c cs ih =>
    by_cases hc : p c = true
    · obtain ⟨a, ha, hpa⟩ := h
      rcases List.mem_cons.1 ha with rfl | ha'
      · exact absurd hc hpa
      · simp only [List.cons_append, List.dropWhile_cons, hc, if_true]
        exact ih ⟨a, ha', hpa⟩
    · simp [List.dropWhile_cons, hc]

theorem exists_non_slash (fp : String) (hfix : rstripSlash fp = fp) (h2 : fp ≠ "") :
    ∃ a ∈ fp.data, ¬(a = '/') := by
  by_contra hall
  push_neg at hall
  exact h2 (hfix ▸ rstripSlash_eq_empty_of_all_slash hall)

theorem stripSlash_data_ne_nil (fp : String) (hfix : rstripSlash fp = fp)
    (h2 : fp ≠ "") : (stripSlash fp).data ≠ [] := by
  obtain ⟨a, ha, hna⟩ := exists_non_slash fp hfix h2
  simp only [stripSlash, hfix]
  intro hnil
  rw [List.dropWhile_eq_nil_iff] at hnil
  exact hna (by simpa using hnil a ha)

theorem data_append_child (fp nm : String) :
    (fp ++ "/" ++ nm).data = fp.data ++ '/' :: nm.data := by
  simp [String.data_append]

theorem rstripSlash_child (fp nm : String) (hn1 : nm ≠ "") (hn2 : '/' ∉ nm.data) :
    rstripSlash (fp ++ "/" ++ nm) = fp ++ "/" ++ nm := by
  apply String.ext
  show ((fp ++ "/" ++ nm).data.reverse.dropWhile fun c => c = '/').reverse =
    (fp ++ "/" ++ nm).data
  rcases hrev : nm.data.reverse with _ | ⟨a, t⟩
  · exact absurd (by simpa using congrArg List.reverse hrev)
      (fun h => hn1 (String.ext (h : nm.data = "".data)))
  · have ha : a ∈ nm.data := by
      rw [← List.mem_reverse, hrev]; exact List.mem_cons_self _ _
    have hna : ¬(a = '/') := fun he => hn2 (he ▸ ha)
    rw [data_append_child]
    have hrev2 : (fp.data ++ '/' :: nm.data).reverse =
        a :: (t ++ '/' :: fp.data.reverse) := by
      simp [List.reverse_append, hrev]
    rw [hrev2, List.dropWhile_cons_of_neg (by simpa using hna)]
    have := congrArg List.reverse hrev2
    rw [List.reverse_reverse] at this
    exact this.symm

theorem stripSlash_child_data (fp nm : String) (hfix : rstripSlash fp = fp)
    (h2 : fp ≠ "") (hn1 : nm ≠ "") (hn2 : '/' ∉ nm.data) :
    (stripSlash (fp ++ "/" ++ nm)).data = (stripSlash fp).data ++ '/' :: nm.data := by
  simp only [stripSlash, rstripSlash_child fp nm hn1 hn2, hfix]
  rw [data_append_child]
  exact dropWhile_append_of_exists fp.data ('/' :: nm.data)
    (by
      obtain ⟨a, ha, hna⟩ := exists_non_slash fp hfix h2
      exact ⟨a, ha, by simpa using hna⟩)

theorem parentOfStr_child_data (fp nm : String) (hfix : rstripSlash fp = fp)
    (h2 : fp ≠ "") (hn1 : nm ≠ "") (hn2 : '/' ∉ nm.data) :
    (parentOfStr (fp ++ "/" ++ nm)).data = '/' :: (stripSlash fp).data := by
  show ('/' :: joinSlash ((splitSlash (stripSlash (fp ++ "/" ++ nm)).data).dropLast)) =
    '/' :: (stripSlash fp).data
  rw [stripSlash_child_data fp nm hfix h2 hn1 hn2,
    splitSlash_append_sep _ _ hn2]
  rw [show ((splitSlash (stripSlash fp).data) ++ [nm.data]).dropLast =
    splitSlash (stripSlash fp).data by simp]
  rw [joinSlash_splitSlash]

theorem parentOf_len_lt (fp nm : String) (hfix : rstripSlash fp = fp)
    (h2 : fp ≠ "") (h3 : fp ≠ "/") (hn1 : nm ≠ "") (hn2 : '/' ∉ nm.data) :
    (parentOfStr fp).data.length < (parentOfStr (fp ++ "/" ++ nm)).data.length := by
  rw [parentOfStr_child_data fp nm hfix h2 hn1 hn2]
  show (('/' :: joinSlash ((splitSlash (stripSlash fp).data).dropLast)).length) <
    ('/' :: (stripSlash fp).data).length
  simp only [List.length_cons]
  have hjs := joinSlash_splitSlash (stripSlash fp).data
  rcases List.eq_nil_or_concat (splitSlash (stripSlash fp).data) with hnil | ⟨xs, y, hconcat⟩
  · exact absurd hnil (splitSlash_ne_nil _)
  · rw [hconcat] at hjs ⊢
    rw [List.concat_eq_append] at hjs ⊢
    rw [show (xs ++ [y]).dropLast = xs by simp]
    rw [← hjs, joinSlash_concat]
    by_cases hxs : xs = []
    · rw [if_pos hxs]
      have hy : y ≠ [] := by
        have hja : joinSlash ([] ++ [y]) = y := by simp [joinSlash]
        rw [hxs, hja] at hjs
        rw [hjs]
        exact stripSlash_data_ne_nil fp hfix h2
      subst hxs
      simp only [joinSlash, List.length_nil]
      have := List.length_pos.mpr hy
      omega
    · rw [if_neg hxs]
      simp only [List.length_append, List.length_cons]
      omega

theorem delete_secret_import_folders (o : Oracle) (env path : String) (i : Nat)
    (s : Store) : ((delete_secret_import o env path i s).2.1).folders = s.folders := by
  unfold delete_secret_import
  cases ho : o (Op.deleteImport env path i) <;> rfl

theorem delete_secret_import_trace (o : Oracle) (env path : String) (i : Nat)
    (s : Store) :
    (delete_secret_import o env path i s).2.2 = [Op.deleteImport env path i] := by
  unfold delete_secret_import
  cases ho : o (Op.deleteImport env path i) <;> rfl

theorem delete_secret_folders (o : Oracle) (env key path : String) (s : Store) :
    ((delete_secret o env key path s).2.1).folders = s.folders := by
  unfold delete_secret
  cases ho : o (Op.deleteSecret env path key) <;> rfl

theorem delete_secret_trace (o : Oracle) (env key path : String) (s : Store) :
    (delete_secret o env key path s).2.2 = [Op.deleteSecret env path key] := by
  unfold delete_secret
  cases ho : o (Op.deleteSecret env path key) <;> rfl

theorem deleteImportsLoop_folders (o : Oracle) (env path : String) :
    ∀ (ids : List Nat) (s : Store),
    ((deleteImportsLoop o env path ids s).2.1).folders = s.folders := by
  intro ids
  induction ids with
  | nil => intro s; rfl
  | cons i rest ih =>
    intro s
    simp only [deleteImportsLoop]
    rcases hd : delete_secret_import o env path i s with ⟨r, s', t⟩
    have hf : s'.folders = s.folders := by
      have h := delete_secret_import_folders o env path i s
      rw [hd] at h
      exact h
    cases r with
    | ok u => exact (ih s').trans hf
    | error f => exact (ih s').trans hf

theorem deleteImportsLoop_ops (o : Oracle) (env path : String) :
    ∀ (ids : List Nat) (s : Store),
    ∀ op ∈ (deleteImportsLoop o env path ids s).2.2,
      ∃ i, op = Op.deleteImport env path i := by
  intro ids
  induction ids with
  | nil => intro s op hop; simp [deleteImportsLoop] at hop
  | cons i rest ih =>
    intro s op hop
    simp only [deleteImportsLoop] at hop
    rcases hd : delete_secret_import o env path i s with ⟨r, s', t⟩
    rw [hd] at hop
    have ht : t = [Op.deleteImport env path i] := by
      have h := delete_secret_import_trace o env path i s
      rw [hd] at h
      exact h
    cases r with
    | ok u =>
      have hop' : op ∈ t ++ (deleteImportsLoop o env path rest s').2.2 := hop
      rw [ht] at hop'
      rcases List.mem_append.1 hop' with h | h
      · exact ⟨i, by simpa using h⟩
      · exact ih s' op h
    | error f =>
      have hop' : op ∈ t ++ (deleteImportsLoop o env path rest s').2.2 := hop
      rw [ht] at hop'
      rcases List.mem_append.1 hop' with h | h
      · exact ⟨i, by simpa using h⟩
      · exact ih s' op h

theorem delete_all_secret_imports_folders (o : Oracle) (env path : String)
    (s : Store) :
    ((delete_all_secret_imports o env path s).2.1).folders = s.folders := by
  unfold delete_all_secret_imports list_secret_imports
  cases ho : o (Op.listImports env path)
  · exact deleteImportsLoop_folders o env path ((importsAt env path s).map Prod.fst) s
  · rfl

theorem delete_all_secret_imports_ops (o : Oracle) (env path : String) (s : Store) :
    ∀ op ∈ (delete_all_secret_imports o env path s).2.2,
      op = Op.listImports env path ∨ ∃ i, op = Op.deleteImport env path i := by
  intro op hop
  unfold delete_all_secret_imports list_secret_imports at hop
  cases ho : o (Op.listImports env path)
  · rw [ho] at hop
    have hop' : op ∈ [Op.listImports env path] ++
        (deleteImportsLoop o env path ((importsAt env path s).map Prod.fst) s).2.2 := hop
    rcases List.mem_append.1 hop' with h | h
    · exact Or.inl (by simpa using h)
    · exact Or.inr (deleteImportsLoop_ops o env path _ s op h)
  · rw [ho] at hop
    exact Or.inl (by simpa using hop)

theorem deleteSecretsLoop_folders (o : Oracle) (env path : String) :
    ∀ (keys : List String) (s : Store),
    ((deleteSecretsLoop o env path keys s).1).folders = s.folders := by
  intro keys
  induction keys with
  | nil => intro s; rfl
  | cons k rest ih =>
    intro s
    simp only [deleteSecretsLoop]
    rcases hd : delete_secret o env k path s with ⟨r, s', t⟩
    have hf : s'.folders = s.folders := by
      have h := delete_secret_folders o env k path s
      rw [hd] at h
      exact h
    exact (ih s').trans hf

theorem deleteSecretsLoop_ops (o : Oracle) (env path : String) :
    ∀ (keys : List String) (s : Store),
    ∀ op ∈ (deleteSecretsLoop o env path keys s).2,
      ∃ k, op = Op.deleteSecret env path k := by
  intro keys
  induction keys with
  | nil => intro s op hop; simp [deleteSecretsLoop] at hop
  | cons k rest ih =>
    intro s op hop
    simp only [deleteSecretsLoop] at hop
    rcases hd : delete_secret o env k path s with ⟨r, s', t⟩
    rw [hd] at hop
    have ht : t = [Op.deleteSecret env path k] := by
      have h := delete_secret_trace o env k path s
      rw [hd] at h
      exact h
    have hop' : op ∈ t ++ (deleteSecretsLoop o env path rest s').2 := hop
    rw [ht] at hop'
    rcases List.mem_append.1 hop' with h | h
    · exact ⟨k, by simpa using h⟩
    · exact ih s' op h

theorem dfrSecretsPhase_folders (o : Oracle) (env fp : String) (s : Store) :
    ((dfrSecretsPhase o env fp s).1).folders = s.folders := by
  unfold dfrSecretsPhase list_secrets
  cases ho : o (Op.listSecrets env fp)
  · exact deleteSecretsLoop_folders o env fp ((secretsAt env fp s).map Prod.fst) s
  · rfl

theorem dfrSecretsPhase_ops (o : Oracle) (env fp : String) (s : Store) :
    ∀ op ∈ (dfrSecretsPhase o env fp s).2,
      op = Op.listSecrets env fp ∨ ∃ k, op = Op.deleteSecret env fp k := by
  intro op hop
  unfold dfrSecretsPhase list_secrets at hop
  cases ho : o (Op.listSecrets env fp)
  · rw [ho] at hop
    have hop' : op ∈ [Op.listSecrets env fp] ++
        (deleteSecretsLoop o env fp ((secretsAt env fp s).map Prod.fst) s).2 := hop
    rcases List.mem_append.1 hop' with h | h
    · exact Or.inl (by simpa using h)
    · exact Or.inr (deleteSecretsLoop_ops o env fp _ s op h)
  · rw [ho] at hop
    exact Or.inl (by simpa using hop)

theorem runChildren_inv (step : String → Store → Except Failure Bool × Store × List Op)
    (Inv : Store → Prop) (Q : Op → Prop) :
    ∀ (names : List String) (s : Store),
    (∀ nm ∈ names, ∀ st, Inv st → Inv (step nm st).2.1) →
    (∀ nm ∈ names, ∀ st, Inv st → ∀ op ∈ (step nm st).2.2, Q op) →
    Inv s →
    Inv (runChildren step names s).1 ∧ ∀ op ∈ (runChildren step names s).2, Q op := by
  intro names
  induction names with
  | nil =>
    intro s _ _ hs
    exact ⟨hs, by intro op hop; simp [runChildren] at hop⟩
  | cons nm rest ih =>
    intro s hpres hstep hs
    simp only [runChildren]
    rcases hd : step nm s with ⟨r, s', t⟩
    have hInv' : Inv s' := by
      have h := hpres nm (List.mem_cons_self _ _) s hs
      rw [hd] at h
      exact h
    have hQt : ∀ op ∈ t, Q op := by
      have h := hstep nm (List.mem_cons_self _ _) s hs
      rw [hd] at h
      exact h
    cases r with
    | error f => exact ⟨hInv', hQt⟩
    | ok b =>
      have hrest := ih s' (fun n hn st hI => hpres n (List.mem_cons_of_mem _ hn) st hI)
        (fun n hn st hI => hstep n (List.mem_cons_of_mem _ hn) st hI) hInv'
      refine ⟨hrest.1, ?_⟩
      intro op hop
      have hop' : op ∈ t ++ (runChildren step rest s').2 := hop
      rcases List.mem_append.1 hop' with h | h
      · exact hQt op h
      · exact hrest.2 op h

theorem delete_folder_folders_sub (o : Oracle) (env : String) (i : Nat)
    (pp : String) (s : Store) :
    ∀ f ∈ ((delete_folder o env i pp s).2.1).folders, f ∈ s.folders := by
  intro f hf
  unfold delete_folder at hf
  cases ho : o (Op.deleteFolder env i pp)
  · rw [ho] at hf
    exact (List.mem_filter.1 hf).1
  · rw [ho] at hf
    exact hf

theorem dfrFinalPhase_folders_sub (o : Oracle) (env fp : String) (s : Store) :
    ∀ f ∈ ((dfrFinalPhase o env fp s).2.1).folders, f ∈ s.folders := by
  intro f hf
  unfold dfrFinalPhase list_folders at hf
  cases ho : o (Op.listFolders env (parentOfStr fp))
  · simp only [ho] at hf
    cases hfind : (foldersAt env (parentOfStr fp) s).find? fun g => g.2 == lastPartStr fp
    · simp only [hfind] at hf
      exact hf
    · rename_i g
      simp only [hfind] at hf
      rcases hdel : delete_folder o env g.1 (parentOfStr fp) s with ⟨r, s'', t'⟩
      rw [hdel] at hf
      have hsub := delete_folder_folders_sub o env g.1 (parentOfStr fp) s f
      rw [hdel] at hsub
      cases r with
      | ok u => exact hsub hf
      | error e => exact hsub hf
  · simp only [ho] at hf
    exact hf

theorem dfrFinalPhase_trace (o : Oracle) (env fp : String) (s : Store) :
    (dfrFinalPhase o env fp s).2.2 = [Op.listFolders env (parentOfStr fp)] ∨
    ∃ i, (dfrFinalPhase o env fp s).2.2 =
      [Op.listFolders env (parentOfStr fp), Op.deleteFolder env i (parentOfStr fp)] := by
  unfold dfrFinalPhase list_folders
  cases ho : o (Op.listFolders env (parentOfStr fp))
  · simp only [ho]
    cases hfind : (foldersAt env (parentOfStr fp) s).find? fun g => g.2 == lastPartStr fp
    · simp [hfind]
    · rename_i g
      simp only [hfind]
      rcases hdel : delete_folder o env g.1 (parentOfStr fp) s with ⟨r, s'', t'⟩
      have ht : t' = [Op.deleteFolder env g.1 (parentOfStr fp)] := by
        have h : (delete_folder o env g.1 (parentOfStr fp) s).2.2 =
            [Op.deleteFolder env g.1 (parentOfStr fp)] := by
          unfold delete_folder
          cases ho2 : o (Op.deleteFolder env g.1 (parentOfStr fp)) <;> rfl
        rw [hdel] at h
        exact h
      cases r with
      | ok u =>
        refine Or.inr ⟨g.1, ?_⟩
        simp [ht]
      | error e =>
        refine Or.inr ⟨g.1, ?_⟩
        simp [ht]
  · simp [ho]

theorem mem_foldersAtL_snd (env path : String) (L : List FolderRec) (nm : String)
    (h : nm ∈ (foldersAtL env path L).map Prod.snd) : ∃ f ∈ L, f.fname = nm := by
  induction L with
  | nil => simp [foldersAtL] at h
  | cons f rest ih =>
    by_cases hc : f.env = env ∧ f.parentPath = path
    · rw [foldersAtL, if_pos hc] at h
      rw [List.map_cons] at h
      rcases List.mem_cons.1 h with h1 | h1
      · exact ⟨f, List.mem_cons_self _ _, h1.symm⟩
      · obtain ⟨g, hg, hgn⟩ := ih h1
        exact ⟨g, List.mem_cons_of_mem _ hg, hgn⟩
    · rw [foldersAtL, if_neg hc] at h
      obtain ⟨g, hg, hgn⟩ := ih h
      exact ⟨g, List.mem_cons_of_mem _ hg, hgn⟩

theorem dfr_succ_decomp (o : Oracle) (fuel : Nat) (env p : String) (s : Store)
    (hroot : ¬(rstripSlash p = "" ∨ rstripSlash p = "/")) :
    delete_folder_recursive o (fuel + 1) env p s =
      ((dfrFinalPhase o env (rstripSlash p)
          (dfrChildrenPhase o
            (fun nm st => delete_folder_recursive o fuel env
              (rstripSlash p ++ "/" ++ nm) st)
            env (rstripSlash p)
            (dfrSecretsPhase o env (rstripSlash p)
              (delete_all_secret_imports o env (rstripSlash p) s).2.1).1).1).1,
       (dfrFinalPhase o env (rstripSlash p)
          (dfrChildrenPhase o
            (fun nm st => delete_folder_recursive o fuel env
              (rstripSlash p ++ "/" ++ nm) st)
            env (rstripSlash p)
            (dfrSecretsPhase o env (rstripSlash p)
              (delete_all_secret_imports o env (rstripSlash p) s).2.1).1).1).2.1,
       (delete_all_secret_imports o env (rstripSlash p) s).2.2 ++
         (dfrSecretsPhase o env (rstripSlash p)
           (delete_all_secret_imports o env (rstripSlash p) s).2.1).2 ++
         (dfrChildrenPhase o
           (fun nm st => delete_folder_recursive o fuel env
             (rstripSlash p ++ "/" ++ nm) st)
           env (rstripSlash p)
           (dfrSecretsPhase o env (rstripSlash p)
             (delete_all_secret_imports o env (rstripSlash p) s).2.1).1).2 ++
         (dfrFinalPhase o env (rstripSlash p)
           (dfrChildrenPhase o
             (fun nm st => delete_folder_recursive o fuel env
               (rstripSlash p ++ "/" ++ nm) st)
             env (rstripSlash p)
             (dfrSecretsPhase o env (rstripSlash p)
               (delete_all_secret_imports o env (rstripSlash p) s).2.1).1).1).2.2) := by
  simp only [delete_folder_recursive]
  rw [if_neg hroot]

theorem dfr_folders_sub (o : Oracle) :
    ∀ (fuel : Nat) (env p : String) (s : Store),
    ∀ f ∈ ((delete_folder_recursive o fuel env p s).2.1).folders, f ∈ s.folders := by
  intro fuel
  induction fuel with
  | zero => intro env p s f hf; exact hf
  | succ n ih =>
    intro env p s f hf
    by_cases hroot : rstripSlash p = "" ∨ rstripSlash p = "/"
    · simp only [delete_folder_recursive, if_pos hroot] at hf
      exact hf
    · rw [dfr_succ_decomp o n env p s hroot] at hf
      have h4 := dfrFinalPhase_folders_sub o env (rstripSlash p)
        (dfrChildrenPhase o
          (fun nm st => delete_folder_recursive o n env (rstripSlash p ++ "/" ++ nm) st)
          env (rstripSlash p)
          (dfrSecretsPhase o env (rstripSlash p)
            (delete_all_secret_imports o env (rstripSlash p) s).2.1).1).1 f hf
      have h3 : ∀ g ∈ ((dfrChildrenPhase o
          (fun nm st => delete_folder_recursive o n env (rstripSlash p ++ "/" ++ nm) st)
          env (rstripSlash p)
          (dfrSecretsPhase o env (rstripSlash p)
            (delete_all_secret_imports o env (rstripSlash p) s).2.1).1).1).folders,
          g ∈ ((dfrSecretsPhase o env (rstripSlash p)
            (delete_all_secret_imports o env (rstripSlash p) s).2.1).1).folders := by
        intro g hg
        unfold dfrChildrenPhase list_folders at hg
        cases holf : o (Op.listFolders env (rstripSlash p))
        · simp only [holf] at hg
          have := (runChildren_inv
            (fun nm st => delete_folder_recursive o n env (rstripSlash p ++ "/" ++ nm) st)
            (fun st => ∀ g ∈ st.folders,
              g ∈ ((dfrSecretsPhase o env (rstripSlash p)
                (delete_all_secret_imports o env (rstripSlash p) s).2.1).1).folders)
            (fun _ => True)
            ((foldersAt env (rstripSlash p)
              (dfrSecretsPhase o env (rstripSlash p)
                (delete_all_secret_imports o env (rstripSlash p) s).2.1).1).map Prod.snd)
            (dfrSecretsPhase o env (rstripSlash p)
              (delete_all_secret_imports o env (rstripSlash p) s).2.1).1
            (fun nm _ st hI g hg2 => hI g (ih env (rstripSlash p ++ "/" ++ nm) st g hg2))
            (fun _ _ _ _ _ _ => trivial)
            (fun g hg2 => hg2)).1
          exact this g hg
        · simp only [holf] at hg
          exact hg
      have h2 := dfrSecretsPhase_folders o env (rstripSlash p)
        (delete_all_secret_imports o env (rstripSlash p) s).2.1
      have h1 := delete_all_secret_imports_folders o env (rstripSlash p) s
      have := h3 f h4
      rw [h2, h1] at this
      exact this

/-- Every folder-delete call issued while processing the child folders of a
non-root folder `fp` targets a parent path strictly longer than `fp`'s own
parent path — so the folder's own delete is never among them. -/
theorem dfrChildrenPhase_depth (o : Oracle) (n : Nat) (env fp : String) (s2 : Store)
    (hfix : rstripSlash fp = fp) (h2 : fp ≠ "") (h3 : fp ≠ "/")
    (hwf2 : ∀ f ∈ s2.folders, f.fname ≠ "" ∧ '/' ∉ f.fname.data)
    (hstepdepth : ∀ (p' : String) (st : Store),
      (∀ f ∈ st.folders, f.fname ≠ "" ∧ '/' ∉ f.fname.data) →
      ∀ op ∈ (delete_folder_recursive o n env p' st).2.2, ∀ e i P,
        op = Op.deleteFolder e i P →
        (parentOfStr p').data.length ≤ P.data.length)
    (hsub : ∀ (p' : String) (st : Store),
      ∀ f ∈ ((delete_folder_recursive o n env p' st).2.1).folders, f ∈ st.folders) :
    ∀ op ∈ (dfrChildrenPhase o
        (fun nm st => delete_folder_recursive o n env (fp ++ "/" ++ nm) st)
        env fp s2).2,
      ∀ e i P, op = Op.deleteFolder e i P →
        (parentOfStr fp).data.length < P.data.length := by
  intro op hop e i P hopEq
  unfold dfrChildrenPhase list_folders at hop
  cases holf : o (Op.listFolders env fp)
  · simp only [holf] at hop
    have hop' : op ∈ [Op.listFolders env fp] ++
        (runChildren
          (fun nm st => delete_folder_recursive o n env (fp ++ "/" ++ nm) st)
          ((foldersAt env fp s2).map Prod.snd) s2).2 := hop
    rcases List.mem_append.1 hop' with h | h
    · rw [hopEq] at h
      simp at h
    · have hrc := (runChildren_inv
        (fun nm st => delete_folder_recursive o n env (fp ++ "/" ++ nm) st)
        (fun st => ∀ f ∈ st.folders, f.fname ≠ "" ∧ '/' ∉ f.fname.data)
        (fun op => ∀ e i P, op = Op.deleteFolder e i P →
          (parentOfStr fp).data.length < P.data.length)
        ((foldersAt env fp s2).map Prod.snd) s2
        (fun nm _ st hI f hf => hI f (hsub (fp ++ "/" ++ nm) st f hf))
        (fun nm hnm st hI op2 hop2 e2 i2 P2 heq2 => by
          obtain ⟨f, hfmem, hfname⟩ := mem_foldersAtL_snd env fp s2.folders nm hnm
          obtain ⟨hn1, hn2⟩ := hwf2 f hfmem
          rw [hfname] at hn1 hn2
          have hle := hstepdepth (fp ++ "/" ++ nm) st hI op2 hop2 e2 i2 P2 heq2
          have hlt := parentOf_len_lt fp nm hfix h2 h3 hn1 hn2
          exact Nat.lt_of_lt_of_le hlt hle)
        hwf2).2
      exact hrc op h e i P hopEq
  · simp only [holf] at hop
    rw [hopEq] at hop
    simp at hop

/-- Every folder-delete call issued anywhere inside `delete_folder_recursive`
on path `p` targets a parent path at least as long as `p`'s own parent
path (the folder's own delete attains the bound, descendants exceed it). -/
theorem dfr_deleteFolder_depth (o : Oracle) :
    ∀ (fuel : Nat) (env p : String) (s : Store),
    (∀ f ∈ s.folders, f.fname ≠ "" ∧ '/' ∉ f.fname.data) →
    ∀ op ∈ (delete_folder_recursive o fuel env p s).2.2, ∀ e i P,
      op = Op.deleteFolder e i P →
      (parentOfStr p).data.length ≤ P.data.length := by
  intro fuel
  induction fuel with
  | zero =>
    intro env p s _ op hop
    simp [delete_folder_recursive] at hop
  | succ n ih =>
    intro env p s hwf op hop e i P hopEq
    by_cases hroot : rstripSlash p = "" ∨ rstripSlash p = "/"
    · simp only [delete_folder_recursive, if_pos hroot] at hop
      simp at hop
    · rw [dfr_succ_decomp o n env p s hroot] at hop
      have hplen : (parentOfStr p).data.length =
          (parentOfStr (rstripSlash p)).data.length := by
        rw [parentOfStr_rstripSlash]
      have hne1 : rstripSlash p ≠ "" := fun h => hroot (Or.inl h)
      have hne2 : rstripSlash p ≠ "/" := fun h => hroot (Or.inr h)
      have hs2wf : ∀ f ∈ ((dfrSecretsPhase o env (rstripSlash p)
          (delete_all_secret_imports o env (rstripSlash p) s).2.1).1).folders,
          f.fname ≠ "" ∧ '/' ∉ f.fname.data := by
        intro f hf
        rw [dfrSecretsPhase_folders, delete_all_secret_imports_folders] at hf
        exact hwf f hf
      rcases List.mem_append.1 hop with hop123 | hop4
      · rcases List.mem_append.1 hop123 with hop12 | hop3
        · rcases List.mem_append.1 hop12 with hop1 | hop2
          · have h := delete_all_secret_imports_ops o env (rstripSlash p) s op hop1
            rw [hopEq] at h
            rcases h with h | ⟨j, h⟩ <;> simp at h
          · have h := dfrSecretsPhase_ops o env (rstripSlash p)
              (delete_all_secret_imports o env (rstripSlash p) s).2.1 op hop2
            rw [hopEq] at h
            rcases h with h | ⟨k, h⟩ <;> simp at h
        · have h := dfrChildrenPhase_depth o n env (rstripSlash p)
            (dfrSecretsPhase o env (rstripSlash p)
              (delete_all_secret_imports o env (rstripSlash p) s).2.1).1
            (rstripSlash_idem p) hne1 hne2 hs2wf
            (fun p' st hwf' => ih env p' st hwf')
            (fun p' st => dfr_folders_sub o n env p' st)
            op hop3 e i P hopEq
          rw [hplen]
          exact Nat.le_of_lt h
      · have h := dfrFinalPhase_trace o env (rstripSlash p)
          (dfrChildrenPhase o
            (fun nm st => delete_folder_recursive o n env (rstripSlash p ++ "/" ++ nm) st)
            env (rstripSlash p)
            (dfrSecretsPhase o env (rstripSlash p)
              (delete_all_secret_imports o env (rstripSlash p) s).2.1).1).1
        rcases h with h | ⟨j, h⟩
        · rw [h] at hop4
          rw [hopEq] at hop4
          simp at hop4
        · rw [h] at hop4
          rw [hopEq] at hop4
          simp only [List.mem_cons, List.mem_singleton] at hop4
          rcases hop4 with h1 | h1 | h1
          · simp at h1
          · have : P = parentOfStr (rstripSlash p) := by
              injection h1 with he hi hP
            rw [this, hplen]
          · simp at h1

/-- **C6.** Deletion ordering: for every oracle (in particular under
arbitrary per-secret delete failures) and any non-root path, the trace of
`delete_folder_recursive` decomposes as `t1 ++ t2 ++ t3 ++ t4` where `t1`
holds only the import listing / import deletes of the path, `t2` only the
secret listing / secret deletes of the path, no call in `t1 ++ t2 ++ t3`
is the folder's own delete (a folder delete at the path's parent), and
`t4` — the only place the folder itself is deleted — is the parent listing
optionally followed by exactly that folder delete, last. Concretely, on a
folder with an import, a secret, and a child folder holding another secret,
with every secret delete failing, the full trace is imports-then-secrets-
then-child (depth-first, the child's own folder delete included)-then-
folder, the folder delete coming last. -/
theorem c6_deletion_ordering (o : Oracle) (fuel : Nat) (env p : String) (s : Store)
    (hroot : ¬(rstripSlash p = "" ∨ rstripSlash p = "/"))
    (hwf : ∀ f ∈ s.folders, f.fname ≠ "" ∧ '/' ∉ f.fname.data) :
    ∃ t1 t2 t3 t4 r s4,
      delete_folder_recursive o (fuel + 1) env p s = (r, s4, t1 ++ t2 ++ t3 ++ t4) ∧
      (∀ op ∈ t1, op = Op.listImports env (rstripSlash p) ∨
        ∃ i, op = Op.deleteImport env (rstripSlash p) i) ∧
      (∀ op ∈ t2, op = Op.listSecrets env (rstripSlash p) ∨
        ∃ k, op = Op.deleteSecret env (rstripSlash p) k) ∧
      (∀ op ∈ t1 ++ t2 ++ t3, ∀ i, op ≠ Op.deleteFolder env i (parentOfStr p)) ∧
      (t4 = [Op.listFolders env (parentOfStr p)] ∨
        ∃ i, t4 = [Op.listFolders env (parentOfStr p),
                   Op.deleteFolder env i (parentOfStr p)]) ∧
      (delete_folder_recursive
          (fun op => match op with
            | Op.deleteSecret _ _ _ => some Failure.transport
            | _ => none)
          2 "prod" "/x"
          ⟨[⟨0, "prod", "/x", "sub"⟩, ⟨1, "prod", "/", "x"⟩],
           [⟨"prod", "/x", "K1", "v1"⟩, ⟨"prod", "/x/sub", "K2", "v2"⟩],
           [⟨7, "prod", "/x", "common", "/x"⟩], 8⟩).2.2 =
        [Op.listImports "prod" "/x", Op.deleteImport "prod" "/x" 7,
         Op.listSecrets "prod" "/x", Op.deleteSecret "prod" "/x" "K1",
         Op.listFolders "prod" "/x",
         Op.listImports "prod" "/x/sub",
         Op.listSecrets "prod" "/x/sub", Op.deleteSecret "prod" "/x/sub" "K2",
         Op.listFolders "prod" "/x/sub",
         Op.listFolders "prod" "/x", Op.deleteFolder "prod" 0 "/x",
         Op.listFolders "prod" "/", Op.deleteFolder "prod" 1 "/"] := by
  have hne1 : rstripSlash p ≠ "" := fun h => hroot (Or.inl h)
  have hne2 : rstripSlash p ≠ "/" := fun h => hroot (Or.inr h)
  have hs2wf : ∀ f ∈ ((dfrSecretsPhase o env (rstripSlash p)
      (delete_all_secret_imports o env (rstripSlash p) s).2.1).1).folders,
      f.fname ≠ "" ∧ '/' ∉ f.fname.data := by
    intro f hf
    rw [dfrSecretsPhase_folders, delete_all_secret_imports_folders] at hf
    exact hwf f hf
  refine ⟨_, _, _, _, _, _, dfr_succ_decomp o fuel env p s hroot,
    delete_all_secret_imports_ops o env (rstripSlash p) s,
    dfrSecretsPhase_ops o env (rstripSlash p)
      (delete_all_secret_imports o env (rstripSlash p) s).2.1, ?_, ?_, by decide⟩
  · intro op hop i heq
    rcases List.mem_append.1 hop with hop12 | hop3
    · rcases List.mem_append.1 hop12 with hop1 | hop2
      · have h := delete_all_secret_imports_ops o env (rstripSlash p) s op hop1
        rw [heq] at h
        rcases h with h | ⟨j, h⟩ <;> simp at h
      · have h := dfrSecretsPhase_ops o env (rstripSlash p)
          (delete_all_secret_imports o env (rstripSlash p) s).2.1 op hop2
        rw [heq] at h
        rcases h with h | ⟨k, h⟩ <;> simp at h
    · have h := dfrChildrenPhase_depth o fuel env (rstripSlash p)
        (dfrSecretsPhase o env (rstripSlash p)
          (delete_all_secret_imports o env (rstripSlash p) s).2.1).1
        (rstripSlash_idem p) hne1 hne2 hs2wf
        (fun p' st hwf' => dfr_deleteFolder_depth o fuel env p' st hwf')
        (fun p' st => dfr_folders_sub o fuel env p' st)
        op hop3 env i (parentOfStr p) heq
      rw [parentOfStr_rstripSlash] at h
      exact Nat.lt_irrefl _ h
  · have h := dfrFinalPhase_trace o env (rstripSlash p)
      (dfrChildrenPhase o
        (fun nm st => delete_folder_recursive o fuel env (rstripSlash p ++ "/" ++ nm) st)
        env (rstripSlash p)
        (dfrSecretsPhase o env (rstripSlash p)
          (delete_all_secret_imports o env (rstripSlash p) s).2.1).1).1
    rw [parentOfStr_rstripSlash] at h
    exact h

theorem c6_deletion_ordering_witness :
    (¬(rstripSlash "/x" = "" ∨ rstripSlash "/x" = "/")) ∧
    (∀ f ∈ ([⟨0, "prod", "/x", "sub"⟩, ⟨1, "prod", "/", "x"⟩] : List FolderRec),
      f.fname ≠ "" ∧ '/' ∉ f.fname.data) ∧
    ∃ t1 t2 t3 t4 r s4,
      delete_folder_recursive noFail (1 + 1) "prod" "/x"
          ⟨[⟨0, "prod", "/x", "sub"⟩, ⟨1, "prod", "/", "x"⟩],
           [⟨"prod", "/x", "K1", "v1"⟩, ⟨"prod", "/x/sub", "K2", "v2"⟩],
           [⟨7, "prod", "/x", "common", "/x"⟩], 8⟩ = (r, s4, t1 ++ t2 ++ t3 ++ t4) ∧
      (∀ op ∈ t1, op = Op.listImports "prod" (rstripSlash "/x") ∨
        ∃ i, op = Op.deleteImport "prod" (rstripSlash "/x") i) ∧
      (∀ op ∈ t2, op = Op.listSecrets "prod" (rstripSlash "/x") ∨
        ∃ k, op = Op.deleteSecret "prod" (rstripSlash "/x") k) ∧
      (∀ op ∈ t1 ++ t2 ++ t3, ∀ i, op ≠ Op.deleteFolder "prod" i (parentOfStr "/x")) ∧
      (t4 = [Op.listFolders "prod" (parentOfStr "/x")] ∨
        ∃ i, t4 = [Op.listFolders "prod" (parentOfStr "/x"),
                   Op.deleteFolder "prod" i (parentOfStr "/x")]) ∧
      (delete_folder_recursive
          (fun op => match op with
            | Op.deleteSecret _ _ _ => some Failure.transport
            | _ => none)
          2 "prod" "/x"
          ⟨[⟨0, "prod", "/x", "sub"⟩, ⟨1, "prod", "/", "x"⟩],
           [⟨"prod", "/x", "K1", "v1"⟩, ⟨"prod", "/x/sub", "K2", "v2"⟩],
           [⟨7, "prod", "/x", "common", "/x"⟩], 8⟩).2.2 =
        [Op.listImports "prod" "/x", Op.deleteImport "prod" "/x" 7,
         Op.listSecrets "prod" "/x", Op.deleteSecret "prod" "/x" "K1",
         Op.listFolders "prod" "/x",
         Op.listImports "prod" "/x/sub",
         Op.listSecrets "prod" "/x/sub", Op.deleteSecret "prod" "/x/sub" "K2",
         Op.listFolders "prod" "/x/sub",
         Op.listFolders "prod" "/x", Op.deleteFolder "prod" 0 "/x",
         Op.listFolders "prod" "/", Op.deleteFolder "prod" 1 "/"] :=
  ⟨by decide, by decide,
   c6_deletion_ordering noFail 1 "prod" "/x"
     ⟨[⟨0, "prod", "/x", "sub"⟩, ⟨1, "prod", "/", "x"⟩],
      [⟨"prod", "/x", "K1", "v1"⟩, ⟨"prod", "/x/sub", "K2", "v2"⟩],
      [⟨7, "prod", "/x", "common", "/x"⟩], 8⟩
     (by decide) (by decide)⟩

/-! ### Claim C4: a second identical sync run is a no-op -/

theorem lookupD_foldl_dictInsert {α : Type} :
    ∀ (l : List (String × α)) (acc : List (String × α)) (k : String),
    (l.map Prod.fst).Nodup →
    lookupD (l.foldl (fun d kv => dictInsert d kv.1 kv.2) acc) k =
      match lookupD l k with
      | some v => some v
      | none => lookupD acc k := by
  intro l
  induction l with
  | nil => intro acc k _; simp [lookupD]
  | cons kv rest ih =>
    intro acc k hnd
    obtain ⟨k1, v1⟩ := kv
    rw [List.map_cons, List.nodup_cons] at hnd
    rw [List.foldl_cons, ih (dictInsert acc k1 v1) k hnd.2]
    by_cases hk : k1 = k
    · subst hk
      have hnone : lookupD rest k1 = none := (lookupD_eq_none_iff rest k1).2 hnd.1
      simp [lookupD, hnone, lookupD_dictInsert_self]
    · simp only [lookupD, if_neg hk]
      cases hr : lookupD rest k
      · simp [lookupD_dictInsert_ne acc k1 k v1 (Ne.symm hk)]
      · rfl

theorem lookupD_dictOf_eq_of_nodup {α : Type} (l : List (String × α)) (k : String)
    (hnd : (l.map Prod.fst).Nodup) : lookupD (dictOf l) k = lookupD l k := by
  unfold dictOf
  rw [lookupD_foldl_dictInsert l [] k hnd]
  cases hr : lookupD l k <;> rfl

/-- Store well-formedness used for idempotence: no two secret records share
the same `(environment, path, key)` coordinate (the remote store keys
secrets by that triple). -/
def SWF (s : Store) : Prop :=
  (s.secrets.map fun r => (r.env, r.path, r.key)).Nodup

instance (s : Store) : Decidable (SWF s) := by
  unfold SWF
  infer_instance

theorem mem_setSecretL_triples (l : List SecretRec) (env path key value : String)
    (x : String × String × String)
    (h : x ∈ (setSecretL l env path key value).map fun r => (r.env, r.path, r.key)) :
    x ∈ (l.map fun r => (r.env, r.path, r.key)) ∨ x = (env, path, key) := by
  induction l with
  | nil =>
    simp only [setSecretL, List.map_cons, List.map_nil] at h
    rcases List.mem_cons.1 h with h1 | h1
    · exact Or.inr h1
    · simp at h1
  | cons r rest ih =>
    by_cases hm : r.env = env ∧ r.path = path ∧ r.key = key
    · rw [setSecretL, if_pos hm] at h
      rw [List.map_cons] at h
      rcases List.mem_cons.1 h with h1 | h1
      · exact Or.inr h1
      · exact Or.inl (by rw [List.map_cons]; exact List.mem_cons_of_mem _ h1)
    · rw [setSecretL, if_neg hm] at h
      rw [List.map_cons] at h
      rcases List.mem_cons.1 h with h1 | h1
      · exact Or.inl (by rw [List.map_cons, h1]; exact List.mem_cons_self _ _)
      · rcases ih h1 with h2 | h2
        · exact Or.inl (by rw [List.map_cons]; exact List.mem_cons_of_mem _ h2)
        · exact Or.inr h2

theorem swf_setSecretL (l : List SecretRec) (env path key value : String)
    (hnd : (l.map fun r => (r.env, r.path, r.key)).Nodup) :
    ((setSecretL l env path key value).map fun r => (r.env, r.path, r.key)).Nodup := by
  induction l with
  | nil => simp [setSecretL]
  | cons r rest ih =>
    rw [List.map_cons, List.nodup_cons] at hnd
    by_cases hm : r.env = env ∧ r.path = path ∧ r.key = key
    · rw [setSecretL, if_pos hm]
      rw [List.map_cons, List.nodup_cons]
      refine ⟨?_, hnd.2⟩
      rw [show ((env : String), (path : String), (key : String)) =
        (r.env, r.path, r.key) by rw [hm.1, hm.2.1, hm.2.2]]
      exact hnd.1
    · rw [setSecretL, if_neg hm]
      rw [List.map_cons, List.nodup_cons]
      refine ⟨?_, ih hnd.2⟩
      intro hmem
      rcases mem_setSecretL_triples rest env path key value _ hmem with h | h
      · exact hnd.1 h
      · exact hm ⟨congrArg Prod.fst h,
          congrArg (fun y => y.2.1) h, congrArg (fun y => y.2.2) h⟩

theorem mem_secretsAtL_keys (env path : String) (l : List SecretRec) (k : String)
    (h : k ∈ (secretsAtL env path l).map Prod.fst) :
    ∃ r ∈ l, r.env = env ∧ r.path = path ∧ r.key = k := by
  induction l with
  | nil => simp [secretsAtL] at h
  | cons r rest ih =>
    by_cases hc : r.env = env ∧ r.path = path
    · rw [secretsAtL, if_pos hc] at h
      rw [List.map_cons] at h
      rcases List.mem_cons.1 h with h1 | h1
      · exact ⟨r, List.mem_cons_self _ _, hc.1, hc.2, h1.symm⟩
      · obtain ⟨g, hg, hge⟩ := ih h1
        exact ⟨g, List.mem_cons_of_mem _ hg, hge⟩
    · rw [secretsAtL, if_neg hc] at h
      obtain ⟨g, hg, hge⟩ := ih h
      exact ⟨g, List.mem_cons_of_mem _ hg, hge⟩

theorem secretsAtL_keys_nodup (env path : String) (l : List SecretRec)
    (hnd : (l.map fun r => (r.env, r.path, r.key)).Nodup) :
    ((secretsAtL env path l).map Prod.fst).Nodup := by
  induction l with
  | nil => simp [secretsAtL]
  | cons r rest ih =>
    rw [List.map_cons, List.nodup_cons] at hnd
    by_cases hc : r.env = env ∧ r.path = path
    · rw [secretsAtL, if_pos hc]
      rw [List.map_cons, List.nodup_cons]
      refine ⟨?_, ih hnd.2⟩
      intro hmem
      obtain ⟨g, hg, hge, hgp, hgk⟩ := mem_secretsAtL_keys env path rest r.key hmem
      refine hnd.1 ?_
      rw [show ((r.env : String), (r.path : String), (r.key : String)) =
        (g.env, g.path, g.key) by rw [hge, hgp, hgk, hc.1, hc.2]]
      exact List.mem_map_of_mem _ hg
    · rw [secretsAtL, if_neg hc]
      exact ih hnd.2

theorem secretsAt_keys_nodup (env path : String) (s : Store) (hswf : SWF s) :
    ((secretsAt env path s).map Prod.fst).Nodup :=
  secretsAtL_keys_nodup env path s.secrets hswf

theorem setLoop_folders_imports (o : Oracle) (env path : String)
    (R : List (String × String)) (dry : Bool) :
    ∀ (D : List (String × String)) (s : Store),
    ((setLoop o env path R dry D s).2.1).folders = s.folders ∧
    ((setLoop o env path R dry D s).2.1).imports = s.imports := by
  intro D
  induction D with
  | nil => intro s; exact ⟨rfl, rfl⟩
  | cons kv rest ih =>
    intro s
    obtain ⟨key, value⟩ := kv
    rcases hR : lookupD R key with _ | oldVal
    · cases dry with
      | true =>
        simp only [setLoop, hR, if_true]
        exact ih s
      | false =>
        simp only [setLoop, hR, Bool.false_eq_true, if_false, create_secret]
        rcases ho : o (.createSecret env path key value) with _ | f
        · exact ih { s with secrets := setSecretL s.secrets env path key value }
        · exact ih s
    · by_cases hv : oldVal = value
      · simp only [setLoop, hR, if_neg (not_not_intro hv)]
        exact ih s
      · cases dry with
        | true =>
          simp only [setLoop, hR, if_pos hv, if_true]
          exact ih s
        | false =>
          simp only [setLoop, hR, if_pos hv, Bool.false_eq_true, if_false,
            update_secret]
          rcases ho : o (.updateSecret env path key value) with _ | f
          · exact ih { s with secrets := setSecretL s.secrets env path key value }
          · exact ih s

theorem setLoop_swf (o : Oracle) (env path : String)
    (R : List (String × String)) (dry : Bool) :
    ∀ (D : List (String × String)) (s : Store),
    SWF s → SWF (setLoop o env path R dry D s).2.1 := by
  intro D
  induction D with
  | nil => intro s hs; exact hs
  | cons kv rest ih =>
    intro s hs
    obtain ⟨key, value⟩ := kv
    have hs1 : SWF { s with secrets := setSecretL s.secrets env path key value } :=
      swf_setSecretL s.secrets env path key value hs
    rcases hR : lookupD R key with _ | oldVal
    · cases dry with
      | true =>
        simp only [setLoop, hR, if_true]
        exact ih s hs
      | false =>
        simp only [setLoop, hR, Bool.false_eq_true, if_false, create_secret]
        rcases ho : o (.createSecret env path key value) with _ | f
        · exact ih { s with secrets := setSecretL s.secrets env path key value } hs1
        · exact ih s hs
    · by_cases hv : oldVal = value
      · simp only [setLoop, hR, if_neg (not_not_intro hv)]
        exact ih s hs
      · cases dry with
        | true =>
          simp only [setLoop, hR, if_pos hv, if_true]
          exact ih s hs
        | false =>
          simp only [setLoop, hR, if_pos hv, Bool.false_eq_true, if_false,
            update_secret]
          rcases ho : o (.updateSecret env path key value) with _ | f
          · exact ih { s with secrets := setSecretL s.secrets env path key value } hs1
          · exact ih s hs

theorem setLoop_frame_path (o : Oracle) (env path : String)
    (R : List (String × String)) (dry : Bool) :
    ∀ (D : List (String × String)) (s : Store) (env' path' k : String),
    ¬(env' = env ∧ path' = path) →
    lookupD (secretsAt env' path' (setLoop o env path R dry D s).2.1) k =
      lookupD (secretsAt env' path' s) k := by
  intro D
  induction D with
  | nil => intro s env' path' k _; rfl
  | cons kv rest ih =>
    intro s env' path' k hpp
    obtain ⟨key, value⟩ := kv
    have hset : ∀ s' : Store,
        lookupD (secretsAt env' path'
          { s' with secrets := setSecretL s'.secrets env path key value }) k =
          lookupD (secretsAt env' path' s') k := fun s' =>
      lookupD_secretsAt_set_frame s' env path key value env' path' k
        (fun hc => hpp ⟨hc.1, hc.2.1⟩)
    rcases hR : lookupD R key with _ | oldVal
    · cases dry with
      | true =>
        simp only [setLoop, hR, if_true]
        exact ih s env' path' k hpp
      | false =>
        simp only [setLoop, hR, Bool.false_eq_true, if_false, create_secret]
        rcases ho : o (.createSecret env path key value) with _ | f
        · exact (ih { s with secrets := setSecretL s.secrets env path key value }
            env' path' k hpp).trans (hset s)
        · exact ih s env' path' k hpp
    · by_cases hv : oldVal = value
      · simp only [setLoop, hR, if_neg (not_not_intro hv)]
        exact ih s env' path' k hpp
      · cases dry with
        | true =>
          simp only [setLoop, hR, if_pos hv, if_true]
          exact ih s env' path' k hpp
        | false =>
          simp only [setLoop, hR, if_pos hv, Bool.false_eq_true, if_false,
            update_secret]
          rcases ho : o (.updateSecret env path key value) with _ | f
          · exact (ih { s with secrets := setSecretL s.secrets env path key value }
              env' path' k hpp).trans (hset s)
          · exact ih s env' path' k hpp

theorem setLoop_establish (env path : String) (R : List (String × String)) :
    ∀ (D : List (String × String)) (s : Store),
    (D.map Prod.fst).Nodup →
    (∀ k, k ∈ D.map Prod.fst → lookupD R k = lookupD (secretsAt env path s) k) →
    ∀ kv ∈ D, lookupD (secretsAt env path
      (setLoop noFail env path R false D s).2.1) kv.1 = some kv.2 := by
  intro D
  induction D with
  | nil => intro s _ _ kv hkv; simp at hkv
  | cons kv0 rest ih =>
    intro s hnd hagree kv hkv
    obtain ⟨k1, v1⟩ := kv0
    rw [List.map_cons, List.nodup_cons] at hnd
    have hagree1 : lookupD R k1 = lookupD (secretsAt env path s) k1 :=
      hagree k1 (by rw [List.map_cons]; exact List.mem_cons_self _ _)
    have hagreeRest : ∀ k, k ∈ rest.map Prod.fst →
        lookupD R k = lookupD (secretsAt env path s) k := fun k hk =>
      hagree k (by rw [List.map_cons]; exact List.mem_cons_of_mem _ hk)
    have hagreeSet : ∀ k, k ∈ rest.map Prod.fst →
        lookupD R k = lookupD (secretsAt env path
          { s with secrets := setSecretL s.secrets env path k1 v1 }) k := by
      intro k hk
      have hkne : k ≠ k1 := fun he => hnd.1 (he ▸ hk)
      rw [hagreeRest k hk]
      exact (lookupD_secretsAt_set_frame s env path k1 v1 env path k
        (fun hc => hkne hc.2.2)).symm
    rcases hR : lookupD R k1 with _ | oldVal
    · simp only [setLoop, hR, Bool.false_eq_true, if_false, create_secret, noFail]
      rcases List.mem_cons.1 hkv with heq | hkv'
      · subst heq
        exact (setLoop_frame noFail env path R false rest
            { s with secrets := setSecretL s.secrets env path k1 v1 }
            env path k1 hnd.1).trans
          (lookupD_secretsAt_set_self s env path k1 v1)
      · exact ih { s with secrets := setSecretL s.secrets env path k1 v1 }
          hnd.2 hagreeSet kv hkv'
    · by_cases hv : oldVal = v1
      · simp only [setLoop, hR, if_neg (not_not_intro hv)]
        rcases List.mem_cons.1 hkv with heq | hkv'
        · subst heq
          exact (setLoop_frame noFail env path R false rest s env path k1
              hnd.1).trans
            (hagree1.symm.trans (hR.trans (by rw [hv])))
        · exact ih s hnd.2 hagreeRest kv hkv'
      · simp only [setLoop, hR, if_pos hv, Bool.false_eq_true, if_false,
          update_secret, noFail]
        rcases List.mem_cons.1 hkv with heq | hkv'
        · subst heq
          exact (setLoop_frame noFail env path R false rest
              { s with secrets := setSecretL s.secrets env path k1 v1 }
              env path k1 hnd.1).trans
            (lookupD_secretsAt_set_self s env path k1 v1)
        · exact ih { s with secrets := setSecretL s.secrets env path k1 v1 }
            hnd.2 hagreeSet kv hkv'

theorem setLoop_pure (env path : String) (R : List (String × String)) :
    ∀ (D : List (String × String)) (s : Store),
    (∀ kv ∈ D, lookupD R kv.1 = some kv.2) →
    setLoop noFail env path R false D s = (⟨0, 0, D.length, 0⟩, s, []) := by
  intro D
  induction D with
  | nil => intro s _; rfl
  | cons kv rest ih =>
    intro s hvals
    obtain ⟨k1, v1⟩ := kv
    have hR : lookupD R k1 = some v1 := hvals (k1, v1) (List.mem_cons_self _ _)
    simp only [setLoop, hR, if_neg (not_not_intro rfl)]
    rw [ih s (fun kv2 hkv2 => hvals kv2 (List.mem_cons_of_mem _ hkv2))]
    rfl

theorem parse_env_file_keys_nodup (lines : List String) :
    ((parse_env_file lines).map Prod.fst).Nodup :=
  nodup_keys_foldl_syncParseStep lines [] (by simp)

theorem set_secrets_folders_imports (o : Oracle) (env : String)
    (lines : List String) (path : String) (dry : Bool) (s : Store) :
    ((set_secrets_from_env o env lines path dry s).2.1).folders = s.folders ∧
    ((set_secrets_from_env o env lines path dry s).2.1).imports = s.imports := by
  simp only [set_secrets_from_env]
  by_cases hD : (parse_env_file lines).isEmpty
  · rw [if_pos hD]
    exact ⟨rfl, rfl⟩
  · rw [if_neg hD]
    simp only [list_secrets]
    rcases ho : o (.listSecrets env path) with _ | f
    · exact setLoop_folders_imports o env path (dictOf (secretsAt env path s)) dry
        (parse_env_file lines) s
    · exact ⟨rfl, rfl⟩

theorem set_secrets_swf (o : Oracle) (env : String)
    (lines : List String) (path : String) (dry : Bool) (s : Store) (hs : SWF s) :
    SWF (set_secrets_from_env o env lines path dry s).2.1 := by
  simp only [set_secrets_from_env]
  by_cases hD : (parse_env_file lines).isEmpty
  · rw [if_pos hD]
    exact hs
  · rw [if_neg hD]
    simp only [list_secrets]
    rcases ho : o (.listSecrets env path) with _ | f
    · exact setLoop_swf o env path (dictOf (secretsAt env path s)) dry
        (parse_env_file lines) s hs
    · exact hs

theorem set_secrets_frame_path (o : Oracle) (env : String)
    (lines : List String) (path : String) (dry : Bool) (s : Store)
    (env' path' k : String) (hpp : ¬(env' = env ∧ path' = path)) :
    lookupD (secretsAt env' path'
        (set_secrets_from_env o env lines path dry s).2.1) k =
      lookupD (secretsAt env' path' s) k := by
  simp only [set_secrets_from_env]
  by_cases hD : (parse_env_file lines).isEmpty
  · rw [if_pos hD]
  · rw [if_neg hD]
    simp only [list_secrets]
    rcases ho : o (.listSecrets env path) with _ | f
    · exact setLoop_frame_path o env path (dictOf (secretsAt env path s)) dry
        (parse_env_file lines) s env' path' k hpp
    · rfl

theorem set_secrets_establish (env : String) (lines : List String) (path : String)
    (s : Store) (hswf : SWF s) :
    ∀ kv ∈ parse_env_file lines,
      lookupD (secretsAt env path
        (set_secrets_from_env noFail env lines path false s).2.1) kv.1 =
        some kv.2 := by
  intro kv hkv
  simp only [set_secrets_from_env]
  by_cases hD : (parse_env_file lines).isEmpty
  · rw [List.isEmpty_iff] at hD
    rw [hD] at hkv
    simp at hkv
  · rw [if_neg hD]
    simp only [list_secrets, noFail]
    have hagree : ∀ k, k ∈ (parse_env_file lines).map Prod.fst →
        lookupD (dictOf (secretsAt env path s)) k =
          lookupD (secretsAt env path s) k := fun k _ =>
      lookupD_dictOf_eq_of_nodup (secretsAt env path s) k
        (secretsAt_keys_nodup env path s hswf)
    exact setLoop_establish env path (dictOf (secretsAt env path s))
      (parse_env_file lines) s (parse_env_file_keys_nodup lines) hagree kv hkv

theorem set_secrets_pure (env : String) (lines : List String) (path : String)
    (s : Store) (hswf : SWF s)
    (hvals : ∀ kv ∈ parse_env_file lines,
      lookupD (secretsAt env path s) kv.1 = some kv.2) :
    ∃ t, set_secrets_from_env noFail env lines path false s =
      (.ok ⟨0, 0, (parse_env_file lines).length, 0⟩, s, t) ∧
      ∀ op ∈ t, op.isMutating = false := by
  simp only [set_secrets_from_env]
  by_cases hD : (parse_env_file lines).isEmpty
  · rw [if_pos hD]
    rw [List.isEmpty_iff] at hD
    rw [hD]
    exact ⟨[], rfl, by intro op hop; simp at hop⟩
  · rw [if_neg hD]
    simp only [list_secrets, noFail]
    have hvals' : ∀ kv ∈ parse_env_file lines,
        lookupD (dictOf (secretsAt env path s)) kv.1 = some kv.2 := fun kv hkv =>
      (lookupD_dictOf_eq_of_nodup (secretsAt env path s) kv.1
        (secretsAt_keys_nodup env path s hswf)).trans (hvals kv hkv)
    rw [setLoop_pure env path (dictOf (secretsAt env path s))
      (parse_env_file lines) s hvals']
    exact ⟨[Op.listSecrets env path], rfl, by
      intro op hop
      rcases List.mem_singleton.1 hop with rfl
      rfl⟩

theorem set_secrets_noFail_ok (env : String) (lines : List String) (path : String)
    (s : Store) (dry : Bool) :
    ∃ st, (set_secrets_from_env noFail env lines path dry s).1 = .ok st := by
  simp only [set_secrets_from_env]
  by_cases hD : (parse_env_file lines).isEmpty
  · rw [if_pos hD]
    exact ⟨_, rfl⟩
  · rw [if_neg hD]
    simp only [list_secrets, noFail]
    exact ⟨_, rfl⟩

/-- All segments of a folder path exist in the store, level by level, the
way `ensure_folder_path` walks them. -/
def PartsExist (env : String) : List String → String → Store → Prop
  | [], _, _ => True
  | part :: rest, curPath, s =>
    part ∈ (foldersAt env curPath s).map Prod.snd ∧
    PartsExist env rest (curPath ++ part ++ "/") s

/-- The segments `ensure_folder_path` walks for a folder path. -/
def pathParts (fp : String) : List String :=
  (splitSlash (stripSlash fp).data).map fun l => (⟨l⟩ : String)

/-- The folder path is a no-op for `ensure_folder_path`: root, empty, or all
its segments already exist. -/
def PathReady (env fp : String) (s : Store) : Prop :=
  fp = "/" ∨ fp = "" ∨ PartsExist env (pathParts fp) "/" s

theorem mem_foldersAt_mono (env cur : String) (s s' : Store)
    (hext : ∃ ext, s'.folders = s.folders ++ ext) (nm : String)
    (h : nm ∈ (foldersAt env cur s).map Prod.snd) :
    nm ∈ (foldersAt env cur s').map Prod.snd := by
  obtain ⟨ext, he⟩ := hext
  unfold foldersAt at h ⊢
  rw [he, foldersAtL_append, List.map_append]
  exact List.mem_append_left _ h

theorem PartsExist_mono (env : String) :
    ∀ (parts : List String) (cur : String) (s s' : Store),
    (∃ ext, s'.folders = s.folders ++ ext) →
    PartsExist env parts cur s → PartsExist env parts cur s' := by
  intro parts
  induction parts with
  | nil => intro cur s s' _ _; trivial
  | cons part rest ih =>
    intro cur s s' hext hpe
    obtain ⟨hmem, hrest⟩ := hpe
    exact ⟨mem_foldersAt_mono env cur s s' hext part hmem,
      ih (cur ++ part ++ "/") s s' hext hrest⟩

theorem PathReady_mono (env fp : String) (s s' : Store)
    (hext : ∃ ext, s'.folders = s.folders ++ ext)
    (h : PathReady env fp s) : PathReady env fp s' := by
  rcases h with h | h | h
  · exact Or.inl h
  · exact Or.inr (Or.inl h)
  · exact Or.inr (Or.inr (PartsExist_mono env (pathParts fp) "/" s s' hext h))

theorem mem_foldersAt_append_self (env cur part : String) (s : Store) (n : Nat) :
    part ∈ (foldersAt env cur
      { s with folders := s.folders ++ [⟨n, env, cur, part⟩],
               nextId := s.nextId + 1 }).map Prod.snd := by
  show part ∈ (foldersAtL env cur (s.folders ++ [⟨n, env, cur, part⟩])).map Prod.snd
  rw [foldersAtL_append, List.map_append]
  refine List.mem_append_right _ ?_
  simp [foldersAtL]

theorem ensureParts_establish (env : String) :
    ∀ (parts : List String) (cur : String) (s : Store),
    (ensureParts noFail env parts cur s).1 = .ok () ∧
    (∃ ext, ((ensureParts noFail env parts cur s).2.1).folders = s.folders ++ ext) ∧
    ((ensureParts noFail env parts cur s).2.1).secrets = s.secrets ∧
    ((ensureParts noFail env parts cur s).2.1).imports = s.imports ∧
    PartsExist env parts cur (ensureParts noFail env parts cur s).2.1 := by
  intro parts
  induction parts with
  | nil => intro cur s; exact ⟨rfl, ⟨[], by simp [ensureParts]⟩, rfl, rfl, trivial⟩
  | cons part rest ih =>
    intro cur s
    simp only [ensureParts, list_folders, noFail]
    by_cases hmem : part ∈ (foldersAt env cur s).map Prod.snd
    · rw [if_pos hmem]
      obtain ⟨hok, ⟨ext, hext⟩, hsec, himp, hpe⟩ := ih (cur ++ part ++ "/") s
      exact ⟨hok, ⟨ext, hext⟩, hsec, himp,
        mem_foldersAt_mono env cur s _ ⟨ext, hext⟩ part hmem, hpe⟩
    · rw [if_neg hmem]
      simp only [create_folder, noFail]
      obtain ⟨hok, ⟨ext, hext⟩, hsec, himp, hpe⟩ := ih (cur ++ part ++ "/")
        { s with folders := s.folders ++ [⟨s.nextId, env, cur, part⟩],
                 nextId := s.nextId + 1 }
      refine ⟨hok, ⟨[⟨s.nextId, env, cur, part⟩] ++ ext, ?_⟩, hsec, himp, ?_, hpe⟩
      · rw [hext]
        exact List.append_assoc _ _ _
      · exact mem_foldersAt_mono env cur
          { s with folders := s.folders ++ [⟨s.nextId, env, cur, part⟩],
                   nextId := s.nextId + 1 } _ ⟨ext, hext⟩ part
          (mem_foldersAt_append_self env cur part s s.nextId)

theorem ensureParts_pure (env : String) :
    ∀ (parts : List String) (cur : String) (s : Store),
    PartsExist env parts cur s →
    ∃ t, ensureParts noFail env parts cur s = (.ok (), s, t) ∧
      ∀ op ∈ t, op.isMutating = false := by
  intro parts
  induction parts with
  | nil => intro cur s _; exact ⟨[], rfl, by intro op hop; simp at hop⟩
  | cons part rest ih =>
    intro cur s hpe
    obtain ⟨hmem, hrest⟩ := hpe
    simp only [ensureParts, list_folders, noFail]
    rw [if_pos hmem]
    obtain ⟨t, ht, hmut⟩ := ih (cur ++ part ++ "/") s hrest
    refine ⟨[Op.listFolders env cur] ++ t, ?_, ?_⟩
    · rw [ht]
    · intro op hop
      rcases List.mem_append.1 hop with h | h
      · rcases List.mem_singleton.1 h with rfl
        rfl
      · exact hmut op h

theorem ensure_folder_path_establish (env fp : String) (s : Store) :
    (ensure_folder_path noFail env fp s).1 = .ok () ∧
    (∃ ext, ((ensure_folder_path noFail env fp s).2.1).folders = s.folders ++ ext) ∧
    ((ensure_folder_path noFail env fp s).2.1).secrets = s.secrets ∧
    ((ensure_folder_path noFail env fp s).2.1).imports = s.imports ∧
    PathReady env fp (ensure_folder_path noFail env fp s).2.1 := by
  unfold ensure_folder_path
  by_cases hroot : fp = "/" ∨ fp = ""
  · rw [if_pos hroot]
    refine ⟨rfl, ⟨[], by simp⟩, rfl, rfl, ?_⟩
    rcases hroot with h | h
    · exact Or.inl h
    · exact Or.inr (Or.inl h)
  · rw [if_neg hroot]
    obtain ⟨hok, hext, hsec, himp, hpe⟩ := ensureParts_establish env
      ((splitSlash (stripSlash fp).data).map fun l => (⟨l⟩ : String)) "/" s
    exact ⟨hok, hext, hsec, himp, Or.inr (Or.inr hpe)⟩

theorem ensure_folder_path_pure (env fp : String) (s : Store)
    (hready : PathReady env fp s) :
    ∃ t, ensure_folder_path noFail env fp s = (.ok (), s, t) ∧
      ∀ op ∈ t, op.isMutating = false := by
  unfold ensure_folder_path
  by_cases hroot : fp = "/" ∨ fp = ""
  · rw [if_pos hroot]
    exact ⟨[], rfl, by intro op hop; simp at hop⟩
  · rw [if_neg hroot]
    rcases hready with h | h | h
    · exact absurd (Or.inl h) hroot
    · exact absurd (Or.inr h) hroot
    · exact ensureParts_pure env (pathParts fp) "/" s h

/-- All the tree's targets are realised in the store: every parsed key holds
its desired value at its target path, and every target folder path exists. -/
def Established (env : String) (targets : List (String × List (String × String)))
    (s : Store) : Prop :=
  ∀ tg ∈ targets,
    (∀ kv ∈ tg.2, lookupD (secretsAt env tg.1 s) kv.1 = some kv.2) ∧
    PathReady env tg.1 s

theorem secretsAt_congr_secrets (env p : String) (s s' : Store)
    (h : s'.secrets = s.secrets) : secretsAt env p s' = secretsAt env p s := by
  unfold secretsAt
  rw [h]

theorem targetPathsOf_mkdir (bp : String) (files : List (String × List String)) :
    targetPathsOf (.mkdir files) bp = files.map fun f => targetPath bp f.1 := by
  simp [targetPathsOf, targetsOf, List.map_map, Function.comp]

theorem targetPathsOf_addSub (bp dname : String) (base sub : LocalTree) :
    targetPathsOf (.addSub base dname sub) bp =
      targetPathsOf base bp ++
        targetPathsOf sub (rstripSlash bp ++ "/" ++ dname) := by
  simp [targetPathsOf, targetsOf, List.map_append]

theorem envImportFiles_establish (env bp : String) :
    ∀ (files : List (String × List String)) (s : Store),
    ((files.map fun f => targetPath bp f.1).Nodup) → SWF s →
    (∃ st, (envImportFiles noFail env false files bp s).1 = .ok st) ∧
    SWF (envImportFiles noFail env false files bp s).2.1 ∧
    (∃ ext, ((envImportFiles noFail env false files bp s).2.1).folders =
      s.folders ++ ext) ∧
    ((envImportFiles noFail env false files bp s).2.1).imports = s.imports ∧
    Established env (files.map fun f => (targetPath bp f.1, parse_env_file f.2))
      (envImportFiles noFail env false files bp s).2.1 ∧
    (∀ p' k, p' ∉ files.map (fun f => targetPath bp f.1) →
      lookupD (secretsAt env p'
        (envImportFiles noFail env false files bp s).2.1) k =
        lookupD (secretsAt env p' s) k) := by
  intro files
  induction files with
  | nil =>
    intro s _ hswf
    exact ⟨⟨⟨0, 0, 0, 0⟩, rfl⟩, hswf, ⟨[], by simp [envImportFiles]⟩, rfl,
      by intro tg htg; simp at htg, fun p' k _ => rfl⟩
  | cons file rest ih =>
    intro s hnd hswf
    obtain ⟨stem, lines⟩ := file
    rw [List.map_cons, List.nodup_cons] at hnd
    obtain ⟨hok1, ⟨ext1, hext1⟩, hsec1, himp1, hready1⟩ :=
      ensure_folder_path_establish env (targetPath bp stem) s
    rcases he : ensure_folder_path noFail env (targetPath bp stem) s with ⟨r1, s1, t1⟩
    rw [he] at hok1 hext1 hsec1 himp1 hready1
    have hr1 : r1 = .ok () := hok1
    subst hr1
    have hswf1 : SWF s1 := by
      unfold SWF
      rw [show s1.secrets = s.secrets from hsec1]
      exact hswf
    obtain ⟨st2, hok2⟩ := set_secrets_noFail_ok env lines (targetPath bp stem) s1 false
    have hswf2 := set_secrets_swf noFail env lines (targetPath bp stem) false s1 hswf1
    obtain ⟨hfol2, himp2⟩ :=
      set_secrets_folders_imports noFail env lines (targetPath bp stem) false s1
    have hestab2 := set_secrets_establish env lines (targetPath bp stem) s1 hswf1
    have hframe2 := set_secrets_frame_path noFail env lines (targetPath bp stem) false s1
    rcases hw : set_secrets_from_env noFail env lines (targetPath bp stem) false s1
      with ⟨r2, s2, t2⟩
    rw [hw] at hok2 hswf2 hfol2 himp2 hestab2 hframe2
    have hr2 : r2 = .ok st2 := hok2
    subst hr2
    obtain ⟨⟨st3, hok3⟩, hswf3, ⟨ext3, hext3⟩, himp3, hestab3, hframe3⟩ :=
      ih s2 hnd.2 hswf2
    rcases hrec : envImportFiles noFail env false rest bp s2 with ⟨r3, s3, t3⟩
    rw [hrec] at hok3 hswf3 hext3 himp3 hestab3 hframe3
    have hr3 : r3 = .ok st3 := hok3
    subst hr3
    have hs2folders : s2.folders = s.folders ++ ext1 := by
      rw [hfol2, hext1]
    have hwhole : envImportFiles noFail env false ((stem, lines) :: rest) bp s =
        (.ok (addStats st2 st3), s3, t1 ++ t2 ++ t3) := by
      simp only [envImportFiles, he, hw, hrec]
    rw [hwhole]
    refine ⟨⟨addStats st2 st3, rfl⟩, hswf3, ⟨ext1 ++ ext3, ?_⟩, ?_, ?_, ?_⟩
    · rw [hext3, hs2folders]
      exact List.append_assoc _ _ _
    · exact himp3.trans (himp2.trans himp1)
    · intro tg htg
      rcases List.mem_cons.1 htg with heq | htg'
      · subst heq
        constructor
        · intro kv hkv
          have hfr := hframe3 (targetPath bp stem) kv.1 hnd.1
          exact hfr.trans (hestab2 kv hkv)
        · refine PathReady_mono env (targetPath bp stem) s2 s3 ⟨ext3, hext3⟩ ?_
          refine PathReady_mono env (targetPath bp stem) s1 s2
            ⟨[], by rw [hfol2]; simp⟩ hready1
      · exact hestab3 tg htg'
    · intro p' k hp'
      have hp1 : p' ≠ targetPath bp stem := fun he2 =>
        hp' (by rw [List.map_cons, he2]; exact List.mem_cons_self _ _)
      have hp2 : p' ∉ rest.map (fun f => targetPath bp f.1) := fun hm =>
        hp' (by rw [List.map_cons]; exact List.mem_cons_of_mem _ hm)
      have h3 := hframe3 p' k hp2
      have h2 := hframe2 env p' k (fun hc => hp1 hc.2)
      have h1 : lookupD (secretsAt env p' s1) k = lookupD (secretsAt env p' s) k := by
        rw [secretsAt_congr_secrets env p' s s1 hsec1]
      exact h3.trans (h2.trans h1)

theorem envImportRecursive_establish (env : String) :
    ∀ (T : LocalTree) (bp : String) (s : Store),
    (targetPathsOf T bp).Nodup → SWF s →
    (∃ st, (envImportRecursive noFail env false T bp s).1 = .ok st) ∧
    SWF (envImportRecursive noFail env false T bp s).2.1 ∧
    (∃ ext, ((envImportRecursive noFail env false T bp s).2.1).folders =
      s.folders ++ ext) ∧
    ((envImportRecursive noFail env false T bp s).2.1).imports = s.imports ∧
    Established env (targetsOf T bp)
      (envImportRecursive noFail env false T bp s).2.1 ∧
    (∀ p' k, p' ∉ targetPathsOf T bp →
      lookupD (secretsAt env p'
        (envImportRecursive noFail env false T bp s).2.1) k =
        lookupD (secretsAt env p' s) k) := by
  intro T
  induction T with
  | mkdir files =>
    intro bp s hnd hswf
    rw [targetPathsOf_mkdir] at hnd
    obtain ⟨hok, hswf', hext, himp, hestab, hframe⟩ :=
      envImportFiles_establish env bp files s hnd hswf
    exact ⟨hok, hswf', hext, himp, hestab, fun p' k hp' =>
      hframe p' k (by rw [targetPathsOf_mkdir] at hp'; exact hp')⟩
  | addSub base dname sub ihbase ihsub =>
    intro bp s hnd hswf
    rw [targetPathsOf_addSub, List.nodup_append] at hnd
    obtain ⟨hnd1, hnd2, hdisj⟩ := hnd
    obtain ⟨⟨st1, hok1⟩, hswf1, ⟨ext1, hext1⟩, himp1, hestab1, hframe1⟩ :=
      ihbase bp s hnd1 hswf
    rcases hb : envImportRecursive noFail env false base bp s with ⟨r1, s1, t1⟩
    rw [hb] at hok1 hswf1 hext1 himp1 hestab1 hframe1
    have hr1 : r1 = .ok st1 := hok1
    subst hr1
    obtain ⟨⟨st2, hok2⟩, hswf2, ⟨ext2, hext2⟩, himp2, hestab2, hframe2⟩ :=
      ihsub (rstripSlash bp ++ "/" ++ dname) s1 hnd2 hswf1
    rcases hs2 : envImportRecursive noFail env false sub
        (rstripSlash bp ++ "/" ++ dname) s1 with ⟨r2, s2, t2⟩
    rw [hs2] at hok2 hswf2 hext2 himp2 hestab2 hframe2
    have hr2 : r2 = .ok st2 := hok2
    subst hr2
    have hwhole : envImportRecursive noFail env false (.addSub base dname sub) bp s =
        (.ok (addStats st1 st2), s2, t1 ++ t2) := by
      simp only [envImportRecursive, hb, hs2]
    rw [hwhole]
    refine ⟨⟨addStats st1 st2, rfl⟩, hswf2, ⟨ext1 ++ ext2, ?_⟩,
      himp2.trans himp1, ?_, ?_⟩
    · rw [hext2, hext1]
      exact List.append_assoc _ _ _
    · intro tg htg
      rw [show targetsOf (.addSub base dname sub) bp =
        targetsOf base bp ++
          targetsOf sub (rstripSlash bp ++ "/" ++ dname) from rfl] at htg
      rcases List.mem_append.1 htg with htg1 | htg2
      · obtain ⟨hvals1, hready1⟩ := hestab1 tg htg1
        have htgp : tg.1 ∈ targetPathsOf base bp :=
          List.mem_map_of_mem Prod.fst htg1
        have hnotsub : tg.1 ∉ targetPathsOf sub (rstripSlash bp ++ "/" ++ dname) :=
          hdisj htgp
        refine ⟨?_, PathReady_mono env tg.1 s1 s2 ⟨ext2, hext2⟩ hready1⟩
        intro kv hkv
        exact (hframe2 tg.1 kv.1 hnotsub).trans (hvals1 kv hkv)
      · exact hestab2 tg htg2
    · intro p' k hp'
      rw [targetPathsOf_addSub] at hp'
      have hp1 : p' ∉ targetPathsOf base bp := fun hm =>
        hp' (List.mem_append_left _ hm)
      have hp2 : p' ∉ targetPathsOf sub (rstripSlash bp ++ "/" ++ dname) := fun hm =>
        hp' (List.mem_append_right _ hm)
      exact (hframe2 p' k hp2).trans (hframe1 p' k hp1)

theorem envImportFiles_pure (env bp : String) :
    ∀ (files : List (String × List String)) (s : Store),
    Established env (files.map fun f => (targetPath bp f.1, parse_env_file f.2)) s →
    SWF s →
    ∃ t, envImportFiles noFail env false files bp s =
      (.ok ⟨0, 0, (files.map fun f => (parse_env_file f.2).length).sum, 0⟩, s, t) ∧
      ∀ op ∈ t, op.isMutating = false := by
  intro files
  induction files with
  | nil =>
    intro s _ _
    exact ⟨[], rfl, by intro op hop; simp at hop⟩
  | cons file rest ih =>
    intro s hestab hswf
    obtain ⟨stem, lines⟩ := file
    obtain ⟨hvals, hready⟩ := hestab (targetPath bp stem, parse_env_file lines)
      (by rw [List.map_cons]; exact List.mem_cons_self _ _)
    obtain ⟨t1, he, hmut1⟩ := ensure_folder_path_pure env (targetPath bp stem) s hready
    obtain ⟨t2, hw, hmut2⟩ := set_secrets_pure env lines (targetPath bp stem) s hswf hvals
    obtain ⟨t3, hrec, hmut3⟩ := ih s
      (fun tg htg => hestab tg (by rw [List.map_cons]; exact List.mem_cons_of_mem _ htg))
      hswf
    refine ⟨t1 ++ t2 ++ t3, ?_, ?_⟩
    · simp only [envImportFiles, he, hw, hrec]
      simp [addStats]
    · intro op hop
      rcases List.mem_append.1 hop with h12 | h3
      · rcases List.mem_append.1 h12 with h1 | h2
        · exact hmut1 op h1
        · exact hmut2 op h2
      · exact hmut3 op h3

theorem envImportRecursive_pure (env : String) :
    ∀ (T : LocalTree) (bp : String) (s : Store),
    Established env (targetsOf T bp) s → SWF s →
    ∃ t, envImportRecursive noFail env false T bp s =
      (.ok ⟨0, 0, totalKeys T, 0⟩, s, t) ∧
      ∀ op ∈ t, op.isMutating = false := by
  intro T
  induction T with
  | mkdir files =>
    intro bp s hestab hswf
    exact envImportFiles_pure env bp files s hestab hswf
  | addSub base dname sub ihbase ihsub =>
    intro bp s hestab hswf
    have hestab1 : Established env (targetsOf base bp) s := fun tg htg =>
      hestab tg (List.mem_append_left _ htg)
    have hestab2 : Established env
        (targetsOf sub (rstripSlash bp ++ "/" ++ dname)) s := fun tg htg =>
      hestab tg (List.mem_append_right _ htg)
    obtain ⟨t1, hb, hmut1⟩ := ihbase bp s hestab1 hswf
    obtain ⟨t2, hs2, hmut2⟩ := ihsub (rstripSlash bp ++ "/" ++ dname) s hestab2 hswf
    refine ⟨t1 ++ t2, ?_, ?_⟩
    · simp only [envImportRecursive, hb, hs2]
      simp [addStats, totalKeys]
    · intro op hop
      rcases List.mem_append.1 hop with h1 | h2
      · exact hmut1 op h1
      · exact hmut2 op h2

/-- **C4.** Second-run idempotence: under a failure-free remote, running the
recursive importer once from any well-formed store (no duplicate secret
coordinates) over a tree whose files map to distinct remote paths succeeds,
and running it a second time over the resulting store reports zero created,
zero updated and zero failed keys — every key of every file is classified
unchanged — leaves the store byte-identical, and issues no mutating remote
call at all (so no folder is created); and a repeated `ensure_secret_import`
(the import-linking pass) always reports "exists", changes nothing and
issues only the non-mutating edge listing, so no import edge is created on
a second run. -/
theorem c4_second_sync_idempotent (env bp : String) (T : LocalTree) (s : Store)
    (hnodup : (targetPathsOf T bp).Nodup) (hswf : SWF s) :
    (∃ st1, (envImportRecursive noFail env false T bp s).1 = .ok st1) ∧
    (∃ t2, envImportRecursive noFail env false T bp
        (envImportRecursive noFail env false T bp s).2.1 =
      (.ok ⟨0, 0, totalKeys T, 0⟩,
       (envImportRecursive noFail env false T bp s).2.1, t2) ∧
      ∀ op ∈ t2, op.isMutating = false) ∧
    (∀ (e p ie ip : String) (s' : Store),
      (ensure_secret_import noFail e p ie ip
          (ensure_secret_import noFail e p ie ip s').2.1).1 = .ok false ∧
      (ensure_secret_import noFail e p ie ip
          (ensure_secret_import noFail e p ie ip s').2.1).2.1 =
        (ensure_secret_import noFail e p ie ip s').2.1 ∧
      ∀ op ∈ (ensure_secret_import noFail e p ie ip
          (ensure_secret_import noFail e p ie ip s').2.1).2.2,
        op.isMutating = false) := by
  obtain ⟨hok, hswf1, _, _, hestab, _⟩ :=
    envImportRecursive_establish env T bp s hnodup hswf
  refine ⟨hok, envImportRecursive_pure env T bp _ hestab hswf1, ?_⟩
  intro e p ie ip s'
  by_cases hany : (importsAt e p s').any
      (fun x => x.2.1 == ie && x.2.2 == ip) = true
  · have hfirst := ensure_secret_import_exists_branch e p ie ip s' hany
    have hs1 : (ensure_secret_import noFail e p ie ip s').2.1 = s' := by
      rw [hfirst]
    have hsecond : ensure_secret_import noFail e p ie ip
        (ensure_secret_import noFail e p ie ip s').2.1 =
        (.ok false, s', [.listImports e p]) := by
      rw [hs1, hfirst]
    refine ⟨by rw [hsecond], by rw [hsecond, hs1], ?_⟩
    intro op hop
    rw [hsecond] at hop
    rcases List.mem_singleton.1 hop with rfl
    rfl
  · have hf : (importsAt e p s').any
        (fun x => x.2.1 == ie && x.2.2 == ip) = false :=
      Bool.eq_false_iff.2 hany
    have hfirst := ensure_secret_import_create_branch e p ie ip s' hf
    have hs1 : (ensure_secret_import noFail e p ie ip s').2.1 =
        { s' with imports := s'.imports ++ [⟨s'.nextId, e, p, ie, ip⟩],
                  nextId := s'.nextId + 1 } := by
      rw [hfirst]
    have hany1 : (importsAt e p
        (ensure_secret_import noFail e p ie ip s').2.1).any
        (fun x => x.2.1 == ie && x.2.2 == ip) = true := by
      rw [hs1, importsAt_append_edge, List.any_append]
      simp
    have hsecond := ensure_secret_import_exists_branch e p ie ip
      (ensure_secret_import noFail e p ie ip s').2.1 hany1
    refine ⟨by rw [hsecond], by rw [hsecond], ?_⟩
    intro op hop
    rw [hsecond] at hop
    rcases List.mem_singleton.1 hop with rfl
    rfl

/-- Demo tree for the idempotence witness: a base directory with `a.env`
(`K=1`) and a subdirectory `sub` with `b.env` (`J=2`). -/
def c4DemoTree : LocalTree :=
  .addSub (.mkdir [("a", ["K=1"])]) "sub" (.mkdir [("b", ["J=2"])])

/-- Empty remote project for the idempotence witness. -/
def c4DemoStore : Store := ⟨[], [], [], 0⟩

theorem c4_second_sync_idempotent_witness :
    (targetPathsOf c4DemoTree "/base").Nodup ∧ SWF c4DemoStore ∧
    ((∃ st1, (envImportRecursive noFail "prod" false c4DemoTree "/base"
        c4DemoStore).1 = .ok st1) ∧
     (∃ t2, envImportRecursive noFail "prod" false c4DemoTree "/base"
         (envImportRecursive noFail "prod" false c4DemoTree "/base"
           c4DemoStore).2.1 =
       (.ok ⟨0, 0, totalKeys c4DemoTree, 0⟩,
        (envImportRecursive noFail "prod" false c4DemoTree "/base"
          c4DemoStore).2.1, t2) ∧
       ∀ op ∈ t2, op.isMutating = false) ∧
     (∀ (e p ie ip : String) (s' : Store),
       (ensure_secret_import noFail e p ie ip
           (ensure_secret_import noFail e p ie ip s').2.1).1 = .ok false ∧
       (ensure_secret_import noFail e p ie ip
           (ensure_secret_import noFail e p ie ip s').2.1).2.1 =
         (ensure_secret_import noFail e p ie ip s').2.1 ∧
       ∀ op ∈ (ensure_secret_import noFail e p ie ip
           (ensure_secret_import noFail e p ie ip s').2.1).2.2,
         op.isMutating = false)) :=
  ⟨by decide, by decide,
   c4_second_sync_idempotent "prod" "/base" c4DemoTree c4DemoStore
     (by decide) (by decide)⟩
